import Mathlib

/-!
Verification of the texra translation pipeline against its specification.

Python strings are modelled as lists of characters (`Str`).  Python's
whitespace set is modelled over the ASCII range, which covers every string
the claims exercise.  Stateful or concurrent parts of the pipeline (the
asyncio dispatch, the semaphore admission gate) are modelled as explicit
completion orders and as an interleaving transition system; the external
translation / validation primitives are modelled as function parameters
returning an explicit outcome (success, exception, unparseable output).
-/

namespace Texra

/-- Python strings, modelled as lists of characters. -/
abbrev Str := List Char

/-- Coerce a Lean string literal to the model type. -/
def str (s : String) : Str := s.data

/-- Python whitespace (`str.strip`, regex `\s`), ASCII range. -/
def isSpace (c : Char) : Bool :=
  c = ' ' || c = '\t' || c = '\n' || c = '\r' || c = '\x0b' || c = '\x0c'

/-- Python `str.strip()`: drop whitespace from both ends. -/
def strip (s : Str) : Str :=
  ((s.dropWhile isSpace).reverse.dropWhile isSpace).reverse

/-- ASCII lower-casing of one character (Python `str.lower` restricted to ASCII). -/
def lowerChar (c : Char) : Char :=
  if 'A' ≤ c && c ≤ 'Z' then Char.ofNat (c.toNat + 32) else c

/-- Python `str.lower` (ASCII model). -/
def lower (s : Str) : Str := s.map lowerChar

/-- `needle` occurs at the start of `hay`. -/
def isSubAt (needle hay : Str) : Bool := needle = hay.take needle.length

/-- Python `needle in hay`: substring containment. -/
def containsSub (needle : Str) : Str → Bool
  | [] => isSubAt needle []
  | c :: rest => isSubAt needle (c :: rest) || containsSub needle rest

/-- The paragraph separator `"\n\n"`. -/
def nl2 : Str := ['\n', '\n']

/-! ## Regex-split machinery

`re.split` with a captured separator group returns the pieces between the
matches interleaved with the matched separators.  We model it as a list of
(piece, following separator) pairs; the final pair carries an empty
separator, matching the `sections[i + 1] if i + 1 < len(sections) else ''`
recombination in the source.  A matcher returns the length of the (greedy)
match of the separator regex at the start of the given string, if any;
every separator of the regexes used by the chunker is nonempty, which the
subtype records. -/

/-- A regex matcher: length of the match at the start of the string, if any. -/
abbrev Matcher := Str → Option { n : Nat // 1 ≤ n }

/-- Scan `s` left to right; `acc` holds the current piece reversed.
`fuel` is an upper bound on the number of scanning steps; every call site
supplies `s.length + 1`, which is shown sufficient below. -/
def reSplitFuel (m : Matcher) : Nat → Str → Str → List (Str × Str)
  | 0, acc, s => [(acc.reverse ++ s, [])]
  | _ + 1, acc, [] => [(acc.reverse, [])]
  | fuel + 1, acc, c :: rest =>
    match m (c :: rest) with
    | some n => (acc.reverse, (c :: rest).take n.1) :: reSplitFuel m fuel [] ((c :: rest).drop n.1)
    | none => reSplitFuel m fuel (c :: acc) rest

/-- `re.split` with a captured separator: (piece, separator) pairs. -/
def reSplit (m : Matcher) (s : Str) : List (Str × Str) :=
  reSplitFuel m (s.length + 1) [] s

/-- Index of the last `'\n'` in a string, if any. -/
def lastNL : Str → Option Nat
  | [] => none
  | c :: t =>
    match lastNL t with
    | some k => some (k + 1)
    | none => if c = '\n' then some 0 else none

/-- Greedy match of `\n\s*\n` at the start of `s` (the section separator of
`SmartChunker._split_by_sections`): a newline, then the longest whitespace
run that still ends just before a final newline. -/
def secMatch : Matcher := fun s =>
  match s with
  | [] => none
  | c :: t =>
    if c = '\n' then
      match lastNL (t.takeWhile isSpace) with
      | some k => some ⟨k + 2, by omega⟩
      | none => none
    else none

/-- `.`, `!` or `?`. -/
def isSentPunct (c : Char) : Bool := c = '.' || c = '!' || c = '?'

/-- Greedy match of `[.!?]+\s+` at the start of `s` (the sentence separator of
`SmartChunker._split_large_section` and `_get_overlap`). -/
def sentMatch : Matcher := fun s =>
  let p := s.takeWhile isSentPunct
  if hp : p.length = 0 then none
  else
    let w := (s.drop p.length).takeWhile isSpace
    if hw : w.length = 0 then none
    else some ⟨p.length + w.length, by omega⟩

/-- The part of `s` after the end of the first `[.!?]+\s+` match
(`re.search` in `SmartChunker._get_overlap`), if there is a match. -/
def afterFirstSentBoundary : Str → Option Str
  | [] => none
  | c :: rest =>
    match sentMatch (c :: rest) with
    | some n => some ((c :: rest).drop n.1)
    | none => afterFirstSentBoundary rest

/-! ## The legacy chunker (`chunker.chunk_text`) -/

/-- Matcher for the literal separator `"\n\n"` of Python `str.split`. -/
def nl2Match : Matcher := fun t =>
  if nl2 = t.take 2 then some ⟨2, by omega⟩ else none

/-- Python `text.split("\n\n")`: the pieces between the (fixed, literal)
separators. -/
def pySplitNl2 (s : Str) : List Str :=
  (reSplit nl2Match s).map Prod.fst

/-- Accumulator of the legacy chunker loop. -/
structure LegacyAcc where
  chunks : List Str
  current : Str

/-- One iteration of the legacy chunker's paragraph loop. -/
def chunk_text_step (max_chars : Nat) (st : LegacyAcc) (para : Str) : LegacyAcc :=
  if st.current.length + para.length < max_chars then
    { st with current := st.current ++ para ++ nl2 }
  else
    { chunks := if st.current ≠ [] then st.chunks ++ [st.current] else st.chunks
      current := para ++ nl2 }

/-- The final flush of the legacy chunker (`if current: chunks.append(current)`). -/
def legacyFinish (st : LegacyAcc) : List Str :=
  if st.current ≠ [] then st.chunks ++ [st.current] else st.chunks

/-- `chunker.chunk_text`: the legacy simple chunker. -/
def chunk_text (text : Str) (max_chars : Nat) : List Str :=
  legacyFinish ((pySplitNl2 text).foldl (chunk_text_step max_chars) ⟨[], []⟩)

/-! ## The overlap-aware chunker (`SmartChunker`) -/

/-- The chunk-with-metadata dictionaries produced by `SmartChunker.chunk_text`. -/
structure Chunk where
  text : Str
  index : Nat
  has_overlap : Bool
  boundary_type : String
  previous_context : Str
deriving DecidableEq

/-- `SmartChunker._split_by_sections`: split on `\n\s*\n` keeping the
separators attached to the preceding piece, then drop whitespace-only
sections. -/
def split_by_sections (text : Str) : List Str :=
  ((reSplit secMatch text).map (fun p => p.1 ++ p.2)).filter
    (fun s => s.any (fun c => !(isSpace c)))

/-- `SmartChunker._get_overlap`: the last `overlap_chars` characters of
`text`, trimmed forward past the first sentence boundary found in them. -/
def get_overlap (overlap_chars : Nat) (text : Str) : Str :=
  if text.length ≤ overlap_chars then text
  else
    let overlap_text := text.drop (text.length - overlap_chars)
    match afterFirstSentBoundary overlap_text with
    | some r => r
    | none => overlap_text

/-- One iteration of the `_split_large_section` sentence-packing loop.
The state is (closed chunks, current accumulator); `pr.1 ++ pr.2` is the
`full_sentence` (sentence plus trailing punctuation-and-space boundary). -/
def slsStep (max_chars : Nat) (st : List Str × Str) (pr : Str × Str) : List Str × Str :=
  if st.2.length + (pr.1 ++ pr.2).length ≤ max_chars then
    (st.1, st.2 ++ (pr.1 ++ pr.2))
  else
    (if st.2 ≠ [] then st.1 ++ [st.2] else st.1, pr.1 ++ pr.2)

/-- The final flush of the sentence-packing loop. -/
def slsFinish (st : List Str × Str) : List Str :=
  if st.2 ≠ [] then st.1 ++ [st.2] else st.1

/-- `SmartChunker._split_large_section`: split a section into sentences and
greedily repack them under `max_chars`. -/
def split_large_section (max_chars : Nat) (sec : Str) : List Str :=
  slsFinish ((reSplit sentMatch sec).foldl (slsStep max_chars) ([], []))

/-- The sentence units (sentence text together with its trailing boundary) of
a section, as produced by the sentence split of `_split_large_section`. -/
def sentenceUnits (sec : Str) : List Str :=
  (reSplit sentMatch sec).map (fun p => p.1 ++ p.2)

/-- State of the `SmartChunker.chunk_text` section loop. -/
structure SCState where
  chunks : List Chunk
  current : Str
  prevOv : Str
  idx : Nat

/-- Emission of one sub-chunk in the oversize-section branch. -/
def scEmitSub (overlap_chars : Nat) (st : SCState) (sub : Str) : SCState :=
  { chunks := st.chunks ++
      [{ text := st.prevOv ++ sub, index := st.idx,
         has_overlap := decide (0 < st.prevOv.length), boundary_type := "sentence",
         previous_context := st.prevOv }]
    current := st.current
    prevOv := get_overlap overlap_chars sub
    idx := st.idx + 1 }

/-- Closing of a non-empty current chunk on overflow (`if current_chunk:`
— append it with boundary `section`, then recompute the overlap for the
next chunk). -/
def scClose (overlap_chars : Nat) (st : SCState) : SCState :=
  if st.current ≠ [] then
    { chunks := st.chunks ++
        [{ text := st.current, index := st.idx,
           has_overlap := decide (0 < st.prevOv.length), boundary_type := "section",
           previous_context := st.prevOv }]
      current := st.current
      prevOv := get_overlap overlap_chars st.current
      idx := st.idx + 1 }
  else st

/-- One iteration of the `SmartChunker.chunk_text` section loop. -/
def scStep (max_chars overlap_chars : Nat) (st : SCState) (sec : Str) : SCState :=
  if st.current.length + sec.length ≤ max_chars then
    { st with current := st.current ++ sec }
  else if sec.length > max_chars then
    { (split_large_section max_chars sec).foldl (scEmitSub overlap_chars)
        (scClose overlap_chars st) with
      current := [] }
  else
    { scClose overlap_chars st with
      current := (scClose overlap_chars st).prevOv ++ sec }

/-- The final flush of the section loop (boundary `end`). -/
def scFinish (st : SCState) : List Chunk :=
  if st.current ≠ [] then
    st.chunks ++
      [{ text := st.current, index := st.idx,
         has_overlap := decide (0 < st.prevOv.length), boundary_type := "end",
         previous_context := st.prevOv }]
  else st.chunks

/-- `SmartChunker.chunk_text`: overlap-aware chunking with metadata.
`max_chars` and `overlap_chars` are the fields the constructor computes as
`max_tokens * chars_per_token` and `overlap_tokens * chars_per_token`. -/
def SmartChunker.chunk_text (max_chars overlap_chars : Nat) (text : Str) : List Chunk :=
  scFinish ((split_by_sections text).foldl (scStep max_chars overlap_chars) ⟨[], [], [], 0⟩)

/-- A chunk's text with its recorded overlap removed (the reassembly step of
the round-trip property). -/
def strippedText (c : Chunk) : Str := c.text.drop c.previous_context.length

/-- The corrected size bound for an overlap-aware chunk: its text is at most
`max_chars` plus its prepended overlap, unless it is a single sentence unit
of one of the sections in `S` that is itself longer than `max_chars`
(prepended with its overlap). -/
def chunkSizeOK (max_chars : Nat) (S : List Str) (ch : Chunk) : Prop :=
  ch.text.length ≤ max_chars + ch.previous_context.length ∨
  ∃ sec ∈ S, ∃ u ∈ sentenceUnits sec,
    ch.text = ch.previous_context ++ u ∧ max_chars < u.length

/-! ## Translation dispatch and failure handling (C1)

One call to the external translation primitive either returns an output
string or raises; a batch fixes one outcome per input text. -/

/-- Outcome of one call to `translation.translate_text`. -/
inductive TransResult where
  | ok (out : Str)
  | exn
deriving DecidableEq

/-- The guard phrases of `PdfFormattingService._clean_translation`. -/
def guard_phrases : List Str :=
  [str "i\x27m sorry", str "i am sorry", str "cannot assist", str "can\x27t assist",
   str "not able to help", str "i cannot comply"]

/-- `PdfFormattingService._clean_translation`: ensure usable translated
content, falling back to the original text when the translation is empty,
whitespace-only, or a guard-refusal. -/
def clean_translation (original_text translated_text : Str) : Str :=
  if translated_text = [] then original_text
  else if strip translated_text = [] then original_text
  else if guard_phrases.any (fun p => containsSub p (lower (strip translated_text))) then
    original_text
  else strip translated_text

/-- `PdfFormattingService._translate_block_with_progress`: translate one
block inside `try/except`, returning the original text if the primitive
raises. -/
def translate_block (prim : Str → TransResult) (text : Str) : Str :=
  match prim text with
  | .ok t => t
  | .exn => text

/-- The PDF service's dispatch (`translate_pdf`): translate all blocks
(`asyncio.gather` keeps results index-aligned), then replace failed or
policy-blocked translations with the original text. -/
def pdf_translate_batch (prim : Str → TransResult) (items : List Str) : List Str :=
  List.zipWith clean_translation items (items.map (translate_block prim))

/-- The orchestrator standard path's dispatch
(`TranslationOrchestrator._translate_chunk_with_progress` under
`asyncio.gather`): the helper has no exception guard, so one raising job
makes the whole gather raise — modelled as `none` (the batch aborts). -/
def orch_translate_batch (prim : Str → TransResult) : List Str → Option (List Str)
  | [] => some []
  | c :: rest =>
    match prim c with
    | .ok t => (orch_translate_batch prim rest).map (fun rs => t :: rs)
    | .exn => none

/-- A unit on which the translation primitive "fails" in the sense of the
specification: an exception (timeouts raise), or an empty /
whitespace-only response. -/
def unitFails (prim : Str → TransResult) (c : Str) : Prop :=
  prim c = .exn ∨ ∃ t, prim c = .ok t ∧ strip t = []

/-! ## Progress reporting (C2)

The per-unit progress values are computed from the completing unit's
scheduled index.  Python's `int((index + 1) / total * 90)` uses float
arithmetic; it is modelled by the exact rational value truncated — at
every input the theorems below evaluate, the float computation is exact. -/

/-- `int((index + 1) / total * 90)`, the value reported by
`PptxTranslationService._translate_text_with_progress`
(and `DocxTranslationService`, with `10 + … * 85`). -/
def pptxProgressVal (total index : Nat) : Nat := ((index + 1) * 90) / total

/-- `5 + int((index + 1) / total * 90)`, the value reported by
`LargeDocumentTranslator._translate_chunk_with_progress`. -/
def largeDocProgressVal (total index : Nat) : Nat := 5 + ((index + 1) * 90) / total

/-- The progress values a callback observes when the `total` jobs of one
PPTX dispatch complete in the order `order` (completion order is arbitrary
under concurrency), followed by the final `progress_callback(100)` of
`translate_slides`. -/
def pptxProgressSeq (total : Nat) (order : List Nat) : List Nat :=
  order.map (pptxProgressVal total) ++ [100]

/-- Likewise for `LargeDocumentTranslator.translate_large_text`, which
reports 5 up front and 100 at the end. -/
def largeDocProgressSeq (total : Nat) (order : List Nat) : List Nat :=
  5 :: (order.map (largeDocProgressVal total) ++ [100])

/-! ## Validation (C7, C8) -/

/-- One issue entry of a validation report (Python dict with keys
`severity`, `type`, `description`, `location`). -/
structure Issue where
  severity : Str
  kind : Str
  description : Str
  location : Str
deriving DecidableEq

/-- The validation report dictionary. `text_length` is only present on the
success path (`none` models an absent key). -/
structure ValidationReport where
  quality_score : Int
  accuracy_score : Int
  completeness_score : Int
  fluency_score : Int
  terminology_score : Int
  issues : List Issue
  overall_assessment : Str
  recommendation : Str
  validation_type : Str
  text_length : Option Nat
deriving DecidableEq

/-- What one validator-agent call produces, as seen by
`validate_translation`: the `try` block may raise (`Runner.run` itself, or
any later exception such as attaching metadata when the parsed JSON is not
an object — all land in the generic `except Exception` handler); the output
string may fail to parse (`json.JSONDecodeError`); or it parses into a
report object. -/
inductive ValidatorResponse where
  | raises (msg : Str)
  | invalidJson
  | parsed (r : ValidationReport)

/-- `validation.validate_translation`: the parsed report enriched with
metadata, or a synthetic report on JSON parse failure / any other
exception.  The function is total over every primitive outcome — no
exception escapes this component. -/
def validate_translation (respond : ValidatorResponse) (source_text : Str) :
    ValidationReport :=
  match respond with
  | .parsed r =>
    { r with text_length := some source_text.length, validation_type := str "full" }
  | .invalidJson =>
    { quality_score := 0, accuracy_score := 0, completeness_score := 0,
      fluency_score := 0, terminology_score := 0,
      issues := [{ severity := str "critical", kind := str "validation_error",
                   description := str "Validator returned invalid JSON",
                   location := str "N/A" }],
      overall_assessment := str "Validation failed - unable to assess quality",
      recommendation := str "retranslate", validation_type := str "error",
      text_length := none }
  | .raises msg =>
    { quality_score := 0, accuracy_score := 0, completeness_score := 0,
      fluency_score := 0, terminology_score := 0,
      issues := [{ severity := str "critical", kind := str "system_error",
                   description := msg, location := str "N/A" }],
      overall_assessment := str "Validation error: " ++ msg,
      recommendation := str "review", validation_type := str "error",
      text_length := none }

/-- `TranslationOrchestrator._validate_and_retry_chunk`.  Returns the
translated sequence after any in-place replacement, the report recorded
for the unit, and the list of texts submitted to the translation primitive
during the call (the instrumentation of "resubmit exactly once"). -/
def validate_and_retry_chunk
    (validatePrim : Str → Str → ValidatorResponse)
    (translatePrim : Str → Str)
    (source_chunk : Str) (translated_chunks : List Str) (idx : Nat) :
    List Str × ValidationReport × List Str :=
  if (validate_translation (validatePrim source_chunk (translated_chunks.getD idx []))
        source_chunk).quality_score < 60
     ∨ (validate_translation (validatePrim source_chunk (translated_chunks.getD idx []))
        source_chunk).recommendation = str "retranslate" then
    (translated_chunks.set idx (translatePrim source_chunk),
     validate_translation (validatePrim source_chunk (translatePrim source_chunk))
       source_chunk,
     [source_chunk])
  else
    (translated_chunks,
     validate_translation (validatePrim source_chunk (translated_chunks.getD idx []))
       source_chunk,
     [])

/-! ## The admission gate (C9)

`async with semaphore: await translate(...)` under the cooperative
scheduler: the only suspension points are the acquire and the primitive
call, so a job is "running" exactly while it holds the gate and its
primitive call is in flight.  Any interleaving of job starts and finishes
is a path in this transition system. -/

/-- Phase of one dispatch job. -/
inductive JobPhase where
  | pending
  | running
  | done
deriving DecidableEq

/-- Number of in-flight primitive invocations. -/
def runningCount (phases : List JobPhase) : Nat :=
  phases.countP (fun p => p = JobPhase.running)

/-- One scheduler step: a pending job is admitted only while fewer than
`limit` jobs hold the semaphore; a running job may finish at any time,
releasing its permit. -/
inductive SemStep (limit : Nat) : List JobPhase → List JobPhase → Prop where
  | start (phases : List JobPhase) (i : Nat) (hi : i < phases.length)
      (hp : phases.get ⟨i, hi⟩ = JobPhase.pending)
      (hcap : runningCount phases < limit) :
      SemStep limit phases (phases.set i JobPhase.running)
  | finish (phases : List JobPhase) (i : Nat) (hi : i < phases.length)
      (hp : phases.get ⟨i, hi⟩ = JobPhase.running) :
      SemStep limit phases (phases.set i JobPhase.done)

/-- States reachable while dispatching a batch of `n` jobs under the gate. -/
inductive SemReachable (limit n : Nat) : List JobPhase → Prop where
  | init : SemReachable limit n (List.replicate n JobPhase.pending)
  | step (s t : List JobPhase) : SemReachable limit n s → SemStep limit s t →
      SemReachable limit n t

/-! ## Structure-preserving translation (C10)

The DOCX / PPTX services collect every run (and PPTX table cell) whose text
is not whitespace-only, submitting `run['text'].strip()`; translation keys
are built from the enumeration indices (`_make_key` encodes them into
strings such as `"elem_i_run_j"`; the encoded tuples are mirrored by the
structured key types, on which the encoding is injective).  `enumerate`
loops are modelled by index-counter recursion; `asyncio.gather` keeps the
translated texts index-aligned with the collected items, so the
translations dictionary maps each key to the translation of its unit.
Formatting attributes carried along by `run.copy()` etc. are modelled as an
opaque `fmt` payload. -/

/-- `text.strip() if text.strip() else text`: what a run's text becomes
under an identity translation (stripped when collected, untouched when
whitespace-only). -/
def pyStripKeep (t : Str) : Str := if strip t = [] then t else strip t

/-- The stripped text of a collected unit, `none` when whitespace-only
(not collected). -/
def stripOpt (t : Str) : Option Str := if strip t = [] then none else some (strip t)

/-- Python `"\n".join(...)` etc. -/
def joinWith (sep : Str) : List Str → Str
  | [] => []
  | [x] => x
  | x :: y :: rest => x ++ sep ++ joinWith sep (y :: rest)

/-- The translations dictionary built by zipping collected items with their
translations. -/
def buildMap {κ : Type} (entries : List (Str × κ)) (translate : Str → Str) :
    List (κ × Str) :=
  entries.map (fun e => (e.2, translate e.1))

/-- Python `key in translations_map` / `translations_map[key]`. -/
def lookupKey {κ : Type} [DecidableEq κ] (m : List (κ × Str)) (k : κ) : Option Str :=
  (m.find? (fun e => e.1 = k)).map (fun e => e.2)

/-- Collection over one enumerated list of texts: the item at enumeration
index `j` (counting from `j0`) is collected under key `mk j` iff its
stripped text is nonempty. -/
def collectTexts {κ : Type} (mk : Nat → κ) (j0 : Nat) : List Str → List (Str × κ)
  | [] => []
  | t :: rest =>
    (if strip t ≠ [] then [(strip t, mk j0)] else []) ++ collectTexts mk (j0 + 1) rest

/-- A DOCX run (text plus the formatting payload `run.copy()` preserves). -/
structure DocxRun where
  text : Str
  fmt : Nat
deriving DecidableEq

/-- A DOCX paragraph: runs plus the cached concatenated text. -/
structure DocxPara where
  runs : List DocxRun
  text : Str
  fmt : Nat
deriving DecidableEq

/-- A DOCX table cell: paragraphs plus the cached combined text. -/
structure DocxCell where
  paragraphs : List DocxPara
  text : Str
  fmt : Nat
deriving DecidableEq

/-- A top-level DOCX element as loaded by `DocxLoader`; elements of other
types pass through the translation service untouched. -/
inductive DocxElement where
  | paragraph (runs : List DocxRun) (text : Str) (fmt : Nat)
  | table (rows : List (List DocxCell)) (fmt : Nat)
  | other (fmt : Nat)
deriving DecidableEq

/-- The structured content of `DocxTranslationService._make_key`. -/
inductive DocxKey where
  | par (elem_idx run_idx : Nat)
  | tab (elem_idx row_idx col_idx para_idx run_idx : Nat)
deriving DecidableEq

/-- The element index a key belongs to. -/
def docxKeyElem : DocxKey → Nat
  | .par e _ => e
  | .tab e _ _ _ _ => e

/-- `_collect_text_items`, table branch, paragraphs of one cell. -/
def docx_collect_cell_paras (e r c p0 : Nat) : List DocxPara → List (Str × DocxKey)
  | [] => []
  | para :: rest =>
    collectTexts (DocxKey.tab e r c p0) 0 (para.runs.map DocxRun.text)
      ++ docx_collect_cell_paras e r c (p0 + 1) rest

/-- `_collect_text_items`, table branch, cells of one row. -/
def docx_collect_cells (e r c0 : Nat) : List DocxCell → List (Str × DocxKey)
  | [] => []
  | cell :: rest =>
    docx_collect_cell_paras e r c0 0 cell.paragraphs
      ++ docx_collect_cells e r (c0 + 1) rest

/-- `_collect_text_items`, table branch, rows. -/
def docx_collect_rows (e r0 : Nat) : List (List DocxCell) → List (Str × DocxKey)
  | [] => []
  | row :: rest =>
    docx_collect_cells e r0 0 row ++ docx_collect_rows e (r0 + 1) rest

/-- `DocxTranslationService._collect_text_items` on one element. -/
def docx_collect_element (e : Nat) : DocxElement → List (Str × DocxKey)
  | .paragraph runs _ _ => collectTexts (DocxKey.par e) 0 (runs.map DocxRun.text)
  | .table rows _ => docx_collect_rows e 0 rows
  | .other _ => []

/-- The collection loop of `translate_document` over the enumerated
elements. -/
def docx_collect_elements (e0 : Nat) : List DocxElement → List (Str × DocxKey)
  | [] => []
  | el :: rest => docx_collect_element e0 el ++ docx_collect_elements (e0 + 1) rest

/-- All translatable units of a DOCX document, in collection order. -/
def docx_collect (els : List DocxElement) : List (Str × DocxKey) :=
  docx_collect_elements 0 els

/-- `_apply_translations` over one enumerated run list: a run's text is
overwritten by the mapped translation when its key is present. -/
def docx_apply_runs (m : List (DocxKey × Str)) (mk : Nat → DocxKey) (j0 : Nat) :
    List DocxRun → List DocxRun
  | [] => []
  | run :: rest =>
    { run with text := (lookupKey m (mk j0)).getD run.text }
      :: docx_apply_runs m mk (j0 + 1) rest

/-- `_apply_translations`, table branch, paragraphs of one cell (the cached
paragraph text is recomputed from the rewritten runs). -/
def docx_apply_cell_paras (m : List (DocxKey × Str)) (e r c p0 : Nat) :
    List DocxPara → List DocxPara
  | [] => []
  | para :: rest =>
    { runs := docx_apply_runs m (DocxKey.tab e r c p0) 0 para.runs
      text := ((docx_apply_runs m (DocxKey.tab e r c p0) 0 para.runs).map
        DocxRun.text).flatten
      fmt := para.fmt }
      :: docx_apply_cell_paras m e r c (p0 + 1) rest

/-- `_apply_translations`, table branch, cells of one row (the cached cell
text is recomputed as the newline-join of the rewritten paragraph texts). -/
def docx_apply_cells (m : List (DocxKey × Str)) (e r c0 : Nat) :
    List DocxCell → List DocxCell
  | [] => []
  | cell :: rest =>
    { paragraphs := docx_apply_cell_paras m e r c0 0 cell.paragraphs
      text := joinWith ['\n'] ((docx_apply_cell_paras m e r c0 0 cell.paragraphs).map
        DocxPara.text)
      fmt := cell.fmt }
      :: docx_apply_cells m e r (c0 + 1) rest

/-- `_apply_translations`, table branch, rows. -/
def docx_apply_rows (m : List (DocxKey × Str)) (e r0 : Nat) :
    List (List DocxCell) → List (List DocxCell)
  | [] => []
  | row :: rest => docx_apply_cells m e r0 0 row :: docx_apply_rows m e (r0 + 1) rest

/-- `DocxTranslationService._apply_translations` on one element. -/
def docx_apply_element (m : List (DocxKey × Str)) (e : Nat) :
    DocxElement → DocxElement
  | .paragraph runs _ fmt =>
    .paragraph (docx_apply_runs m (DocxKey.par e) 0 runs)
      (((docx_apply_runs m (DocxKey.par e) 0 runs).map DocxRun.text).flatten) fmt
  | .table rows fmt => .table (docx_apply_rows m e 0 rows) fmt
  | .other fmt => .other fmt

/-- The application loop of `translate_document` over the enumerated
elements. -/
def docx_apply_elements (m : List (DocxKey × Str)) (e0 : Nat) :
    List DocxElement → List DocxElement
  | [] => []
  | el :: rest => docx_apply_element m e0 el :: docx_apply_elements m (e0 + 1) rest

/-- Applying a translations dictionary to a whole DOCX document. -/
def docx_apply_translations (m : List (DocxKey × Str)) (els : List DocxElement) :
    List DocxElement :=
  docx_apply_elements m 0 els

/-- The expected observable effect of an identity translation on one run:
collected (non-whitespace) runs end up stripped, whitespace-only runs stay
unchanged. -/
def docx_run_spec (run : DocxRun) : DocxRun :=
  { run with text := pyStripKeep run.text }

/-- Expected paragraph after an identity translation (cache recomputed). -/
def docx_para_spec (para : DocxPara) : DocxPara :=
  { runs := para.runs.map docx_run_spec
    text := ((para.runs.map docx_run_spec).map DocxRun.text).flatten
    fmt := para.fmt }

/-- Expected cell after an identity translation (cache recomputed). -/
def docx_cell_spec (cell : DocxCell) : DocxCell :=
  { paragraphs := cell.paragraphs.map docx_para_spec
    text := joinWith ['\n'] ((cell.paragraphs.map docx_para_spec).map DocxPara.text)
    fmt := cell.fmt }

/-- Expected element after an identity translation. -/
def docx_element_spec : DocxElement → DocxElement
  | .paragraph runs _ fmt =>
    .paragraph (runs.map docx_run_spec)
      (((runs.map docx_run_spec).map DocxRun.text).flatten) fmt
  | .table rows fmt => .table (rows.map (fun row => row.map docx_cell_spec)) fmt
  | .other fmt => .other fmt

/-- Expected document after an identity translation. -/
def docx_identity_spec (els : List DocxElement) : List DocxElement :=
  els.map docx_element_spec

/-- A PPTX run. -/
structure PptxRun where
  text : Str
  fmt : Nat
deriving DecidableEq

/-- A PPTX paragraph: runs plus the cached concatenated text. -/
structure PptxPara where
  runs : List PptxRun
  text : Str
  fmt : Nat
deriving DecidableEq

/-- A PPTX table cell (translated at cell-text granularity). -/
structure PptxCell where
  text : Str
  fmt : Nat
deriving DecidableEq

/-- A PPTX shape as loaded by `PptxLoader`: a text frame, a table, a
recursive group, or any other shape (untouched). -/
inductive PptxShape where
  | text (paragraphs : List PptxPara) (fmt : Nat)
  | table (rows : List (List PptxCell)) (fmt : Nat)
  | group (shapes : List PptxShape) (fmt : Nat)
  | other (fmt : Nat)

/-- The structured content of `PptxTranslationService._make_key`:
slide index, shape path (ancestor enumeration indices, the leaf shape's own
index last), and the paragraph/run or row/column indices. -/
inductive PptxKey where
  | run (slide : Nat) (path : List Nat) (para_idx run_idx : Nat)
  | cell (slide : Nat) (path : List Nat) (row_idx col_idx : Nat)
deriving DecidableEq

/-- The slide index of a key. -/
def pptxKeySlide : PptxKey → Nat
  | .run s _ _ _ => s
  | .cell s _ _ _ => s

/-- The shape path of a key. -/
def pptxKeyPath : PptxKey → List Nat
  | .run _ p _ _ => p
  | .cell _ p _ _ => p

/-- `_collect_text_items`, text-shape branch (paragraphs × runs). -/
def pptx_collect_paras (slide : Nat) (path : List Nat) (p0 : Nat) :
    List PptxPara → List (Str × PptxKey)
  | [] => []
  | para :: rest =>
    collectTexts (PptxKey.run slide path p0) 0 (para.runs.map PptxRun.text)
      ++ pptx_collect_paras slide path (p0 + 1) rest

/-- `_collect_text_items`, table branch (rows × cells, cell-level text). -/
def pptx_collect_table_rows (slide : Nat) (path : List Nat) (r0 : Nat) :
    List (List PptxCell) → List (Str × PptxKey)
  | [] => []
  | row :: rest =>
    collectTexts (PptxKey.cell slide path r0) 0 (row.map PptxCell.text)
      ++ pptx_collect_table_rows slide path (r0 + 1) rest

mutual

/-- `PptxTranslationService._collect_text_items` on one shape; `path` is the
`current_path` (this shape's own enumeration index last). -/
def pptx_collect_shape (slide : Nat) (path : List Nat) : PptxShape → List (Str × PptxKey)
  | .text paras _ => pptx_collect_paras slide path 0 paras
  | .table rows _ => pptx_collect_table_rows slide path 0 rows
  | .group shapes _ => pptx_collect_shapes slide path 0 shapes
  | .other _ => []

/-- Collection over an enumerated list of (sub-)shapes. -/
def pptx_collect_shapes (slide : Nat) (path : List Nat) (i0 : Nat) :
    List PptxShape → List (Str × PptxKey)
  | [] => []
  | sh :: rest =>
    pptx_collect_shape slide (path ++ [i0]) sh
      ++ pptx_collect_shapes slide path (i0 + 1) rest

end

/-- The collection loop of `translate_slides` over the enumerated slides. -/
def pptx_collect_slides (s0 : Nat) : List (List PptxShape) → List (Str × PptxKey)
  | [] => []
  | shapes :: rest =>
    pptx_collect_shapes s0 [] 0 shapes ++ pptx_collect_slides (s0 + 1) rest

/-- All translatable units of a PPTX document, in collection order. -/
def pptx_collect (slides : List (List PptxShape)) : List (Str × PptxKey) :=
  pptx_collect_slides 0 slides

/-- `_apply_translations` over the enumerated runs of one paragraph. -/
def pptx_apply_runs (m : List (PptxKey × Str)) (slide : Nat) (path : List Nat)
    (p j0 : Nat) : List PptxRun → List PptxRun
  | [] => []
  | run :: rest =>
    { run with text := (lookupKey m (PptxKey.run slide path p j0)).getD run.text }
      :: pptx_apply_runs m slide path p (j0 + 1) rest

/-- `_apply_translations`, text-shape branch (paragraph text recomputed). -/
def pptx_apply_paras (m : List (PptxKey × Str)) (slide : Nat) (path : List Nat)
    (p0 : Nat) : List PptxPara → List PptxPara
  | [] => []
  | para :: rest =>
    { runs := pptx_apply_runs m slide path p0 0 para.runs
      text := ((pptx_apply_runs m slide path p0 0 para.runs).map PptxRun.text).flatten
      fmt := para.fmt }
      :: pptx_apply_paras m slide path (p0 + 1) rest

/-- `_apply_translations`, table branch, cells of one row. -/
def pptx_apply_cells (m : List (PptxKey × Str)) (slide : Nat) (path : List Nat)
    (r c0 : Nat) : List PptxCell → List PptxCell
  | [] => []
  | cell :: rest =>
    { cell with text := (lookupKey m (PptxKey.cell slide path r c0)).getD cell.text }
      :: pptx_apply_cells m slide path r (c0 + 1) rest

/-- `_apply_translations`, table branch, rows. -/
def pptx_apply_rows (m : List (PptxKey × Str)) (slide : Nat) (path : List Nat)
    (r0 : Nat) : List (List PptxCell) → List (List PptxCell)
  | [] => []
  | row :: rest =>
    pptx_apply_cells m slide path r0 0 row :: pptx_apply_rows m slide path (r0 + 1) rest

mutual

/-- `PptxTranslationService._apply_translations` on one shape. -/
def pptx_apply_shape (m : List (PptxKey × Str)) (slide : Nat) (path : List Nat) :
    PptxShape → PptxShape
  | .text paras fmt => .text (pptx_apply_paras m slide path 0 paras) fmt
  | .table rows fmt => .table (pptx_apply_rows m slide path 0 rows) fmt
  | .group shapes fmt => .group (pptx_apply_shapes m slide path 0 shapes) fmt
  | .other fmt => .other fmt

/-- Application over an enumerated list of (sub-)shapes. -/
def pptx_apply_shapes (m : List (PptxKey × Str)) (slide : Nat) (path : List Nat)
    (i0 : Nat) : List PptxShape → List PptxShape
  | [] => []
  | sh :: rest =>
    pptx_apply_shape m slide (path ++ [i0]) sh
      :: pptx_apply_shapes m slide path (i0 + 1) rest

end

/-- The application loop of `translate_slides` over the enumerated slides. -/
def pptx_apply_slides (m : List (PptxKey × Str)) (s0 : Nat) :
    List (List PptxShape) → List (List PptxShape)
  | [] => []
  | shapes :: rest =>
    pptx_apply_shapes m s0 [] 0 shapes :: pptx_apply_slides m (s0 + 1) rest

/-- Applying a translations dictionary to a whole PPTX document. -/
def pptx_apply_translations (m : List (PptxKey × Str))
    (slides : List (List PptxShape)) : List (List PptxShape) :=
  pptx_apply_slides m 0 slides

/-- Expected run after an identity translation. -/
def pptx_run_spec (run : PptxRun) : PptxRun := { run with text := pyStripKeep run.text }

/-- Expected paragraph after an identity translation (cache recomputed). -/
def pptx_para_spec (para : PptxPara) : PptxPara :=
  { runs := para.runs.map pptx_run_spec
    text := ((para.runs.map pptx_run_spec).map PptxRun.text).flatten
    fmt := para.fmt }

/-- Expected cell after an identity translation. -/
def pptx_cell_spec (cell : PptxCell) : PptxCell :=
  { cell with text := pyStripKeep cell.text }

mutual

/-- Expected shape after an identity translation. -/
def pptx_shape_spec : PptxShape → PptxShape
  | .text paras fmt => .text (paras.map pptx_para_spec) fmt
  | .table rows fmt => .table (rows.map (fun row => row.map pptx_cell_spec)) fmt
  | .group shapes fmt => .group (pptx_shapes_spec shapes) fmt
  | .other fmt => .other fmt

/-- Expected shape list after an identity translation. -/
def pptx_shapes_spec : List PptxShape → List PptxShape
  | [] => []
  | sh :: rest => pptx_shape_spec sh :: pptx_shapes_spec rest

end

/-- Expected document after an identity translation. -/
def pptx_identity_spec (slides : List (List PptxShape)) : List (List PptxShape) :=
  slides.map pptx_shapes_spec

/-- Navigation to the leaf text a PPTX key addresses inside a shape whose
`current_path` extended by `suffix` equals the key's path (`suffix = []`
means the key addresses this shape's own paragraphs / cells). -/
def pptxNavShape (sh : PptxShape) (suffix : List Nat) (k : PptxKey) : Option Str :=
  match suffix with
  | [] =>
    match sh, k with
    | .text paras _, .run _ _ p j =>
      (paras.get? p).bind (fun para => (para.runs.map PptxRun.text).get? j)
    | .table rows _, .cell _ _ r c =>
      (rows.get? r).bind (fun row => (row.map PptxCell.text).get? c)
    | _, _ => none
  | i :: rest =>
    match sh with
    | .group shapes _ => (shapes.get? i).bind (fun c => pptxNavShape c rest k)
    | _ => none

/-- Navigation from a slide's top-level shape list. -/
def pptxNavShapes (shapes : List PptxShape) (suffix : List Nat) (k : PptxKey) :
    Option Str :=
  match suffix with
  | [] => none
  | i :: rest => (shapes.get? i).bind (fun sh => pptxNavShape sh rest k)

/-- Navigation to the run text a DOCX key addresses. -/
def docxElNav (el : DocxElement) (k : DocxKey) : Option Str :=
  match el, k with
  | .paragraph runs _ _, .par _ j => (runs.map DocxRun.text).get? j
  | .table rows _, .tab _ r c p j =>
    (rows.get? r).bind (fun row => (row.get? c).bind (fun cell =>
      (cell.paragraphs.get? p).bind (fun para => (para.runs.map DocxRun.text).get? j)))
  | _, _ => none

/-! ## Helper lemmas: the split machinery -/

theorem reSplitFuel_concat (m : Matcher) :
    ∀ (fuel : Nat) (acc s : Str),
    ((reSplitFuel m fuel acc s).map (fun p => p.1 ++ p.2)).flatten = acc.reverse ++ s := by
  intro fuel
  induction fuel with
  | zero => intro acc s; simp [reSplitFuel]
  | succ n ih =>
    intro acc s
    cases s with
    | nil => simp [reSplitFuel]
    | cons c rest =>
      rw [reSplitFuel]
      cases hm : m (c :: rest) with
      | none => simpa using ih (c :: acc) rest
      | some k =>
        simp only [List.map_cons, List.flatten_cons, ih [] ((c :: rest).drop k.1),
          List.reverse_nil, List.nil_append, List.append_assoc, List.take_append_drop]

theorem reSplit_concat (m : Matcher) (s : Str) :
    ((reSplit m s).map (fun p => p.1 ++ p.2)).flatten = s := by
  simpa using reSplitFuel_concat m (s.length + 1) [] s

theorem reSplitFuel_ne_nil (m : Matcher) :
    ∀ (fuel : Nat) (acc s : Str), reSplitFuel m fuel acc s ≠ [] := by
  intro fuel
  induction fuel with
  | zero => intro acc s; simp [reSplitFuel]
  | succ n ih =>
    intro acc s
    cases s with
    | nil => simp [reSplitFuel]
    | cons c rest =>
      rw [reSplitFuel]
      cases hm : m (c :: rest) with
      | none => exact ih (c :: acc) rest
      | some k => simp

theorem reSplit_ne_nil (m : Matcher) (s : Str) : reSplit m s ≠ [] :=
  reSplitFuel_ne_nil m (s.length + 1) [] s

theorem reSplitFuel_nl2_join :
    ∀ (fuel : Nat) (acc s : Str),
    (((reSplitFuel nl2Match fuel acc s).map Prod.fst).map (· ++ nl2)).flatten
      = acc.reverse ++ s ++ nl2 := by
  intro fuel
  induction fuel with
  | zero => intro acc s; simp [reSplitFuel]
  | succ n ih =>
    intro acc s
    cases s with
    | nil => simp [reSplitFuel]
    | cons c rest =>
      rw [reSplitFuel]
      cases hm : nl2Match (c :: rest) with
      | none => simpa using ih (c :: acc) rest
      | some k =>
        have hk : k.1 = 2 ∧ nl2 = (c :: rest).take 2 := by
          unfold nl2Match at hm
          split at hm
          · rename_i h
            injection hm with hm2
            exact ⟨by rw [← hm2], h⟩
          · exact absurd hm (by simp)
        have hsplit : (c :: rest) = nl2 ++ (c :: rest).drop 2 := by
          conv_lhs => rw [← List.take_append_drop 2 (c :: rest)]
          rw [← hk.2]
        have ih2 := ih [] ((c :: rest).drop k.1)
        simp only [List.reverse_nil, List.nil_append] at ih2
        simp only [List.map_cons, List.flatten_cons, ih2, hk.1]
        conv_rhs => rw [hsplit]
        simp only [List.append_assoc]
        rw [hk.1] at ih2
        simpa [List.map_map, List.drop_succ_cons, List.drop_one] using ih2

theorem pySplitNl2_join (text : Str) :
    ((pySplitNl2 text).map (· ++ nl2)).flatten = text ++ nl2 := by
  simpa [pySplitNl2, reSplit] using reSplitFuel_nl2_join (text.length + 1) [] text

theorem pySplitNl2_ne_nil (text : Str) : pySplitNl2 text ≠ [] := by
  intro h
  exact reSplit_ne_nil nl2Match text (List.map_eq_nil_iff.mp h)

/-! ## Helper lemmas: the legacy chunker -/

theorem chunk_fold_concat (mc : Nat) :
    ∀ (paras : List Str) (st : LegacyAcc),
    ((paras.foldl (chunk_text_step mc) st).chunks).flatten
        ++ (paras.foldl (chunk_text_step mc) st).current
      = st.chunks.flatten ++ st.current ++ ((paras.map (· ++ nl2)).flatten) := by
  intro paras
  induction paras with
  | nil => intro st; simp
  | cons p ps ih =>
    intro st
    rw [List.foldl_cons, ih]
    have hstep : (chunk_text_step mc st p).chunks.flatten ++ (chunk_text_step mc st p).current
        = st.chunks.flatten ++ st.current ++ (p ++ nl2) := by
      unfold chunk_text_step
      split
      · simp [List.append_assoc]
      · split
        · simp [List.append_assoc]
        · rename_i h
          simp only [ne_eq, not_not] at h
          simp [h, List.append_assoc]
    rw [hstep]
    simp [List.append_assoc]

theorem chunk_step_current_ne (mc : Nat) (st : LegacyAcc) (p : Str) :
    (chunk_text_step mc st p).current ≠ [] := by
  unfold chunk_text_step
  split <;> simp [nl2]

theorem chunk_fold_current_ne (mc : Nat) :
    ∀ (paras : List Str) (st : LegacyAcc), paras ≠ [] →
    (paras.foldl (chunk_text_step mc) st).current ≠ [] := by
  intro paras
  induction paras with
  | nil => intro st h; exact absurd rfl h
  | cons p ps ih =>
    intro st _
    rw [List.foldl_cons]
    cases hps : ps with
    | nil => simpa using chunk_step_current_ne mc st p
    | cons q qs => exact hps ▸ ih (chunk_text_step mc st p) (by simp [hps])

/-! ## Helper lemmas: SmartChunker round trip (no oversize sections) -/

theorem scStep_roundtrip (mc oc : Nat) (st : SCState) (sec done : Str)
    (hsec : sec ≠ []) (hlen : sec.length ≤ mc)
    (h1 : (st.chunks.map strippedText).flatten ++ st.current.drop st.prevOv.length = done)
    (h2 : st.current.take st.prevOv.length = st.prevOv)
    (h3 : st.current = [] → st.chunks = [] ∧ st.prevOv = []) :
    ((scStep mc oc st sec).chunks.map strippedText).flatten
        ++ (scStep mc oc st sec).current.drop (scStep mc oc st sec).prevOv.length
      = done ++ sec
    ∧ (scStep mc oc st sec).current.take (scStep mc oc st sec).prevOv.length
        = (scStep mc oc st sec).prevOv
    ∧ (scStep mc oc st sec).current ≠ [] := by
  unfold scStep
  by_cases hfits : st.current.length + sec.length ≤ mc
  case pos =>
    rw [if_pos hfits]
    by_cases hcur : st.current = []
    · obtain ⟨hch, hov⟩ := h3 hcur
      simp only [hcur, hch, hov, List.map_nil, List.flatten_nil, List.nil_append,
        List.length_nil, List.drop_zero, List.take_zero] at h1 ⊢
      refine ⟨?_, ?_, hsec⟩
      · rw [← h1]
        simp
      · simp
    · have hle : st.prevOv.length ≤ st.current.length := by
        have hlen2 := congrArg List.length h2
        simp only [List.length_take] at hlen2
        omega
      refine ⟨?_, ?_, ?_⟩
      · simp only [List.drop_append_of_le_length hle, ← List.append_assoc, h1]
      · simp only [List.take_append_of_le_length hle, h2]
      · simp [hcur]
  case neg =>
    rw [if_neg hfits, if_neg (show ¬ sec.length > mc by omega)]
    have hcur : st.current ≠ [] := by
      intro h
      rw [h] at hfits
      simp only [List.length_nil, Nat.zero_add] at hfits
      omega
    unfold scClose
    simp only [if_pos hcur]
    refine ⟨?_, ?_, ?_⟩
    · simp only [List.map_append, List.flatten_append, List.map_cons, List.map_nil,
        List.flatten_cons, List.flatten_nil, List.append_nil, strippedText,
        List.drop_left, List.append_assoc, h1]
    · simp only [List.take_left]
    · simp [hsec]

theorem sc_fold_roundtrip (mc oc : Nat) :
    ∀ (secs : List Str) (st : SCState) (done : Str),
    (∀ s ∈ secs, s ≠ [] ∧ s.length ≤ mc) →
    ((st.chunks.map strippedText).flatten ++ st.current.drop st.prevOv.length = done) →
    (st.current.take st.prevOv.length = st.prevOv) →
    (st.current = [] → st.chunks = [] ∧ st.prevOv = []) →
    ((((secs.foldl (scStep mc oc) st).chunks.map strippedText).flatten
        ++ (secs.foldl (scStep mc oc) st).current.drop
            (secs.foldl (scStep mc oc) st).prevOv.length
      = done ++ secs.flatten)
    ∧ ((secs.foldl (scStep mc oc) st).current.take
          (secs.foldl (scStep mc oc) st).prevOv.length
        = (secs.foldl (scStep mc oc) st).prevOv)
    ∧ ((secs.foldl (scStep mc oc) st).current = [] →
        st.current = [] ∧ secs = [])) := by
  intro secs
  induction secs with
  | nil =>
    intro st done _ h1 h2 h3
    exact ⟨by simpa using h1, h2, fun h => ⟨h, rfl⟩⟩
  | cons sec rest ih =>
    intro st done hall h1 h2 h3
    obtain ⟨hsec, hlen⟩ := hall sec (by simp)
    obtain ⟨g1, g2, g3⟩ := scStep_roundtrip mc oc st sec done hsec hlen h1 h2 h3
    rw [List.foldl_cons]
    obtain ⟨r1, r2, r3⟩ := ih (scStep mc oc st sec) (done ++ sec)
      (fun s hs => hall s (by simp [hs])) g1 g2 (fun h => absurd h g3)
    refine ⟨by simpa [List.append_assoc] using r1, r2, fun h => absurd ((r3 h).1) g3⟩

theorem split_by_sections_all (text : Str)
    (hws : ∀ p ∈ reSplit secMatch text, ∃ c ∈ p.1, isSpace c = false) :
    split_by_sections text = (reSplit secMatch text).map (fun p => p.1 ++ p.2) := by
  unfold split_by_sections
  apply List.filter_eq_self.mpr
  intro s hs
  obtain ⟨p, hp, hps⟩ := List.mem_map.mp hs
  obtain ⟨c, hc, hcs⟩ := hws p hp
  subst hps
  simp only [List.any_eq_true]
  exact ⟨c, by simp [hc], by simp [hcs]⟩

theorem chunk_text_join (text : Str) (mc : Nat) :
    (chunk_text text mc).flatten = text ++ nl2 := by
  unfold chunk_text legacyFinish
  have hne := chunk_fold_current_ne mc (pySplitNl2 text) ⟨[], []⟩ (pySplitNl2_ne_nil text)
  have hconcat := chunk_fold_concat mc (pySplitNl2 text) ⟨[], []⟩
  simp only [hne, if_pos, ne_eq, not_false_eq_true, List.flatten_append, List.flatten_cons,
    List.flatten_nil, List.append_nil]
  simpa [pySplitNl2_join text] using hconcat

/-! ## Helper lemmas: no empty chunk is ever emitted -/

theorem chunk_fold_chunks_ne (mc : Nat) :
    ∀ (paras : List Str) (st : LegacyAcc), (∀ c ∈ st.chunks, c ≠ []) →
    ∀ c ∈ (paras.foldl (chunk_text_step mc) st).chunks, c ≠ [] := by
  intro paras
  induction paras with
  | nil => intro st h; exact h
  | cons p ps ih =>
    intro st h
    rw [List.foldl_cons]
    apply ih
    intro c hc
    unfold chunk_text_step at hc
    split at hc
    · exact h c hc
    · split at hc
      · rename_i hcur
        rcases List.mem_append.mp hc with h1 | h1
        · exact h c h1
        · simpa using (List.mem_singleton.mp h1) ▸ hcur
      · exact h c hc

theorem chunk_text_mem_ne (text : Str) (mc : Nat) :
    ∀ c ∈ chunk_text text mc, c ≠ [] := by
  unfold chunk_text legacyFinish
  intro c hc
  split at hc
  · rename_i hcur
    rcases List.mem_append.mp hc with h1 | h1
    · exact chunk_fold_chunks_ne mc (pySplitNl2 text) ⟨[], []⟩ (by simp) c h1
    · exact (List.mem_singleton.mp h1) ▸ hcur
  · exact chunk_fold_chunks_ne mc (pySplitNl2 text) ⟨[], []⟩ (by simp) c hc

theorem sls_fold_ne (mc : Nat) :
    ∀ (prs : List (Str × Str)) (st : List Str × Str), (∀ u ∈ st.1, u ≠ []) →
    ∀ u ∈ (prs.foldl (slsStep mc) st).1, u ≠ [] := by
  intro prs
  induction prs with
  | nil => intro st h; exact h
  | cons pr rest ih =>
    intro st h
    rw [List.foldl_cons]
    apply ih
    intro u hu
    unfold slsStep at hu
    split at hu
    · exact h u hu
    · split at hu
      · rename_i hcur
        rcases List.mem_append.mp hu with h1 | h1
        · exact h u h1
        · exact (List.mem_singleton.mp h1) ▸ hcur
      · exact h u hu

theorem split_large_section_ne (mc : Nat) (sec : Str) :
    ∀ u ∈ split_large_section mc sec, u ≠ [] := by
  unfold split_large_section slsFinish
  intro u hu
  split at hu
  · rename_i hcur
    rcases List.mem_append.mp hu with h1 | h1
    · exact sls_fold_ne mc (reSplit sentMatch sec) ([], []) (by simp) u h1
    · exact (List.mem_singleton.mp h1) ▸ hcur
  · exact sls_fold_ne mc (reSplit sentMatch sec) ([], []) (by simp) u hu

theorem scEmit_fold_textne (oc : Nat) :
    ∀ (subs : List Str) (st : SCState), (∀ ch ∈ st.chunks, ch.text ≠ []) →
    (∀ u ∈ subs, u ≠ []) →
    ∀ ch ∈ (subs.foldl (scEmitSub oc) st).chunks, ch.text ≠ [] := by
  intro subs
  induction subs with
  | nil => intro st h _; exact h
  | cons sub rest ih =>
    intro st h hsubs
    rw [List.foldl_cons]
    apply ih
    · intro ch hch
      unfold scEmitSub at hch
      rcases List.mem_append.mp hch with h1 | h1
      · exact h ch h1
      · rw [List.mem_singleton.mp h1]
        intro hnil
        exact hsubs sub (by simp) (List.append_eq_nil.mp hnil).2
    · intro u hu
      exact hsubs u (by simp [hu])

theorem scClose_textne (oc : Nat) (st : SCState)
    (h : ∀ ch ∈ st.chunks, ch.text ≠ []) :
    ∀ ch ∈ (scClose oc st).chunks, ch.text ≠ [] := by
  unfold scClose
  split
  · rename_i hcur
    intro ch hch
    rcases List.mem_append.mp hch with h1 | h1
    · exact h ch h1
    · rw [List.mem_singleton.mp h1]
      exact hcur
  · exact h

theorem scStep_textne (mc oc : Nat) (st : SCState) (sec : Str)
    (h : ∀ ch ∈ st.chunks, ch.text ≠ []) :
    ∀ ch ∈ (scStep mc oc st sec).chunks, ch.text ≠ [] := by
  unfold scStep
  split
  · exact h
  · split
    · exact scEmit_fold_textne oc (split_large_section mc sec) (scClose oc st)
        (scClose_textne oc st h) (split_large_section_ne mc sec)
    · exact scClose_textne oc st h

theorem sc_fold_textne (mc oc : Nat) :
    ∀ (secs : List Str) (st : SCState), (∀ ch ∈ st.chunks, ch.text ≠ []) →
    ∀ ch ∈ (secs.foldl (scStep mc oc) st).chunks, ch.text ≠ [] := by
  intro secs
  induction secs with
  | nil => intro st h; exact h
  | cons sec rest ih =>
    intro st h
    rw [List.foldl_cons]
    exact ih (scStep mc oc st sec) (scStep_textne mc oc st sec h)

theorem smart_chunk_mem_textne (mc oc : Nat) (text : Str) :
    ∀ ch ∈ SmartChunker.chunk_text mc oc text, ch.text ≠ [] := by
  unfold SmartChunker.chunk_text scFinish
  intro ch hch
  split at hch
  · rename_i hcur
    rcases List.mem_append.mp hch with h1 | h1
    · exact sc_fold_textne mc oc (split_by_sections text) ⟨[], [], [], 0⟩ (by simp) ch h1
    · rw [List.mem_singleton.mp h1]
      exact hcur
  · exact sc_fold_textne mc oc (split_by_sections text) ⟨[], [], [], 0⟩ (by simp) ch hch

/-! ## Chunker claims -/

/-- C3 (confirmed): on the input `"A.\n\nB.\n\nC."` with `max_chars = 4`
(so each line is its own chunk) and overlap `0`, the overlap-aware chunker
emits exactly the three chunks `"A.\n\n"`, `"B.\n\n"`, `"C."`, and their
concatenation reproduces the input. -/
theorem chunk_scenario_three_lines :
    (SmartChunker.chunk_text 4 0 (str "A.\n\nB.\n\nC.")).map Chunk.text
        = [str "A.\n\n", str "B.\n\n", str "C."]
    ∧ ((SmartChunker.chunk_text 4 0 (str "A.\n\nB.\n\nC.")).map Chunk.text).flatten
        = str "A.\n\nB.\n\nC." := by
  constructor <;> decide

/-- C4 (counterexample): the round-trip property as stated is false: in legacy
mode the concatenation of the chunks of `"A"` is `"A\n\n"`, not `"A"`. -/
theorem chunk_round_trip_counterexample :
    ¬ ((∀ text mc oc,
          ((SmartChunker.chunk_text mc oc text).map strippedText).flatten = text)
       ∧ (∀ text mc, (chunk_text text mc).flatten = text)) := by
  intro h
  have h2 := h.2 (str "A") 4000
  revert h2
  decide

/-- C4 (amended): in legacy mode concatenating the chunks yields the original
text followed by one trailing `"\n\n"` separator; in overlap-aware mode,
provided no blank-line piece of the text is whitespace-only (so no section
is discarded) and no section exceeds `max_chars` (so the sentence sub-split
is not taken), concatenating the chunk texts after stripping each chunk's
recorded overlap prefix reproduces the original text exactly. -/
theorem chunk_round_trip_amended :
    (∀ text mc, (chunk_text text mc).flatten = text ++ nl2) ∧
    (∀ text mc oc,
      (∀ p ∈ reSplit secMatch text, ∃ c ∈ p.1, isSpace c = false) →
      (∀ s ∈ split_by_sections text, s.length ≤ mc) →
      ((SmartChunker.chunk_text mc oc text).map strippedText).flatten = text) := by
  constructor
  · exact chunk_text_join
  · intro text mc oc hws hlen
    have hsecs := split_by_sections_all text hws
    have hall : ∀ s ∈ split_by_sections text, s ≠ [] ∧ s.length ≤ mc := by
      intro s hs
      refine ⟨?_, hlen s hs⟩
      have hf := List.of_mem_filter hs
      intro hnil
      rw [hnil] at hf
      simp at hf
    have hflat : (split_by_sections text).flatten = text := by
      rw [hsecs, reSplit_concat]
    obtain ⟨r1, r2, r3⟩ := sc_fold_roundtrip mc oc (split_by_sections text)
      ⟨[], [], [], 0⟩ [] hall (by simp) (by simp) (fun _ => ⟨rfl, rfl⟩)
    unfold SmartChunker.chunk_text scFinish
    split
    · simp only [List.map_append, List.flatten_append, List.map_cons, List.map_nil,
        List.flatten_cons, List.flatten_nil, List.append_nil, strippedText]
      simpa [hflat] using r1
    · rename_i hcur
      simp only [ne_eq, not_not] at hcur
      obtain ⟨_, hnil⟩ := r3 hcur
      rw [hnil] at hflat
      simp only [List.flatten_nil] at hflat
      rw [hnil, ← hflat]
      simp

/-- C5 (counterexample): the claim is false for the legacy chunker: on empty
input it emits the single chunk `"\n\n"`, not zero chunks. -/
theorem chunk_empty_counterexample :
    ¬ ((∀ mc, chunk_text [] mc = [])
       ∧ (∀ mc oc, SmartChunker.chunk_text mc oc [] = [])
       ∧ (∀ text mc c, c ∈ chunk_text text mc → c ≠ [])
       ∧ (∀ text mc oc ch, ch ∈ SmartChunker.chunk_text mc oc text → ch.text ≠ [])) := by
  intro h
  have h1 := h.1 4000
  revert h1
  decide

/-- C5 (amended): the overlap-aware chunker emits zero chunks on empty input,
while the legacy chunker emits the single chunk `"\n\n"`; in both chunkers
no emitted chunk ever has text of length zero. -/
theorem chunk_empty_and_nonzero_amended :
    (∀ mc oc, SmartChunker.chunk_text mc oc [] = [])
    ∧ (∀ mc, chunk_text [] mc = [nl2])
    ∧ (∀ text mc c, c ∈ chunk_text text mc → c ≠ [])
    ∧ (∀ text mc oc ch, ch ∈ SmartChunker.chunk_text mc oc text → ch.text ≠ []) := by
  refine ⟨fun mc oc => rfl, ?_, ?_, ?_⟩
  · intro mc
    rcases Nat.eq_zero_or_pos mc with h | h
    · subst h; rfl
    · simp [chunk_text, legacyFinish, pySplitNl2, reSplit, reSplitFuel, nl2Match,
        chunk_text_step, h, nl2]
  · exact chunk_text_mem_ne
  · exact fun text mc oc => smart_chunk_mem_textne mc oc text

/-! ## Helper lemmas: chunk size bounds -/

theorem sls_fold_spec (mc : Nat) (sec : Str) :
    ∀ (prs : List (Str × Str)) (st : List Str × Str),
    (∀ pr ∈ prs, pr.1 ++ pr.2 ∈ sentenceUnits sec) →
    (∀ u ∈ st.1, u.length ≤ mc ∨ (u ∈ sentenceUnits sec ∧ mc < u.length)) →
    (st.2 = [] ∨ st.2.length ≤ mc ∨ (st.2 ∈ sentenceUnits sec ∧ mc < st.2.length)) →
    (∀ u ∈ (prs.foldl (slsStep mc) st).1,
        u.length ≤ mc ∨ (u ∈ sentenceUnits sec ∧ mc < u.length))
    ∧ ((prs.foldl (slsStep mc) st).2 = []
        ∨ (prs.foldl (slsStep mc) st).2.length ≤ mc
        ∨ ((prs.foldl (slsStep mc) st).2 ∈ sentenceUnits sec
            ∧ mc < (prs.foldl (slsStep mc) st).2.length)) := by
  intro prs
  induction prs with
  | nil => intro st _ h1 h2; exact ⟨h1, h2⟩
  | cons pr rest ih =>
    intro st hall h1 h2
    rw [List.foldl_cons]
    have hu : pr.1 ++ pr.2 ∈ sentenceUnits sec := hall pr (by simp)
    apply ih _ (fun q hq => hall q (by simp [hq]))
    · intro u hu2
      unfold slsStep at hu2
      split at hu2
      · exact h1 u hu2
      · split at hu2
        · rename_i hcur
          rcases List.mem_append.mp hu2 with hx | hx
          · exact h1 u hx
          · rw [List.mem_singleton.mp hx]
            rcases h2 with h | h | h
            · exact absurd h hcur
            · exact Or.inl h
            · exact Or.inr h
        · exact h1 u hu2
    · unfold slsStep
      split
      · rename_i hle
        right; left
        calc (st.2 ++ (pr.1 ++ pr.2)).length = st.2.length + (pr.1 ++ pr.2).length := by
              simp
          _ ≤ mc := hle
      · rcases le_or_lt (pr.1 ++ pr.2).length mc with h | h
        · right; left; simpa using h
        · right; right; exact ⟨hu, h⟩

theorem split_large_section_spec (mc : Nat) (sec : Str) :
    ∀ u ∈ split_large_section mc sec,
    u.length ≤ mc ∨ (u ∈ sentenceUnits sec ∧ mc < u.length) := by
  unfold split_large_section slsFinish
  obtain ⟨h1, h2⟩ := sls_fold_spec mc sec (reSplit sentMatch sec) ([], [])
    (fun pr hpr => List.mem_map_of_mem (fun p => p.1 ++ p.2) hpr)
    (by simp) (by simp)
  intro u hu
  split at hu
  · rename_i hcur
    rcases List.mem_append.mp hu with hx | hx
    · exact h1 u hx
    · rw [List.mem_singleton.mp hx]
      rcases h2 with h | h | h
      · exact absurd h hcur
      · exact Or.inl h
      · exact Or.inr h
  · exact h1 u hu

theorem scEmit_fold_size (mc oc : Nat) (S : List Str) (sec : Str) (hsec : sec ∈ S) :
    ∀ (subs : List Str) (st : SCState),
    (∀ ch ∈ st.chunks, chunkSizeOK mc S ch) →
    (∀ u ∈ subs, u.length ≤ mc ∨ (u ∈ sentenceUnits sec ∧ mc < u.length)) →
    ∀ ch ∈ (subs.foldl (scEmitSub oc) st).chunks, chunkSizeOK mc S ch := by
  intro subs
  induction subs with
  | nil => intro st h _; exact h
  | cons sub rest ih =>
    intro st h hall
    rw [List.foldl_cons]
    apply ih
    · intro ch hch
      unfold scEmitSub at hch
      rcases List.mem_append.mp hch with hx | hx
      · exact h ch hx
      · rw [List.mem_singleton.mp hx]
        rcases hall sub (by simp) with hs | hs
        · left
          simp only [List.length_append]
          omega
        · right
          exact ⟨sec, hsec, sub, hs.1, rfl, hs.2⟩
    · intro u hu
      exact hall u (by simp [hu])

theorem scClose_size (mc oc : Nat) (S : List Str) (st : SCState)
    (h : ∀ ch ∈ st.chunks, chunkSizeOK mc S ch)
    (hQ : st.current.length ≤ mc + st.prevOv.length) :
    ∀ ch ∈ (scClose oc st).chunks, chunkSizeOK mc S ch := by
  unfold scClose
  split
  · intro ch hch
    rcases List.mem_append.mp hch with hx | hx
    · exact h ch hx
    · rw [List.mem_singleton.mp hx]
      exact Or.inl hQ
  · exact h

theorem scStep_size (mc oc : Nat) (S : List Str) (st : SCState) (sec : Str)
    (hsec : sec ∈ S)
    (h : ∀ ch ∈ st.chunks, chunkSizeOK mc S ch)
    (hQ : st.current.length ≤ mc + st.prevOv.length) :
    (∀ ch ∈ (scStep mc oc st sec).chunks, chunkSizeOK mc S ch)
    ∧ (scStep mc oc st sec).current.length
        ≤ mc + (scStep mc oc st sec).prevOv.length := by
  unfold scStep
  split
  · rename_i hle
    refine ⟨h, ?_⟩
    simp only [List.length_append]
    omega
  · split
    · refine ⟨?_, by simp⟩
      exact scEmit_fold_size mc oc S sec hsec (split_large_section mc sec)
        (scClose oc st) (scClose_size mc oc S st h hQ) (split_large_section_spec mc sec)
    · rename_i hbig
      refine ⟨scClose_size mc oc S st h hQ, ?_⟩
      simp only [List.length_append]
      omega

theorem sc_fold_size (mc oc : Nat) (S : List Str) :
    ∀ (secs : List Str) (st : SCState),
    (∀ s ∈ secs, s ∈ S) →
    (∀ ch ∈ st.chunks, chunkSizeOK mc S ch) →
    st.current.length ≤ mc + st.prevOv.length →
    (∀ ch ∈ (secs.foldl (scStep mc oc) st).chunks, chunkSizeOK mc S ch)
    ∧ (secs.foldl (scStep mc oc) st).current.length
        ≤ mc + (secs.foldl (scStep mc oc) st).prevOv.length := by
  intro secs
  induction secs with
  | nil => intro st _ h hQ; exact ⟨h, hQ⟩
  | cons sec rest ih =>
    intro st hall h hQ
    rw [List.foldl_cons]
    obtain ⟨g1, g2⟩ := scStep_size mc oc S st sec (hall sec (by simp)) h hQ
    exact ih _ (fun s hs => hall s (by simp [hs])) g1 g2

theorem chunk_fold_size (mc : Nat) (P0 : List Str) :
    ∀ (paras : List Str) (st : LegacyAcc),
    (∀ p ∈ paras, p ∈ P0) →
    (∀ c ∈ st.chunks, c.length < mc + 2 ∨ ∃ para ∈ P0, c = para ++ nl2) →
    (st.current = [] ∨ st.current.length < mc + 2 ∨ ∃ para ∈ P0, st.current = para ++ nl2) →
    (∀ c ∈ (paras.foldl (chunk_text_step mc) st).chunks,
        c.length < mc + 2 ∨ ∃ para ∈ P0, c = para ++ nl2)
    ∧ ((paras.foldl (chunk_text_step mc) st).current = []
        ∨ (paras.foldl (chunk_text_step mc) st).current.length < mc + 2
        ∨ ∃ para ∈ P0, (paras.foldl (chunk_text_step mc) st).current = para ++ nl2) := by
  intro paras
  induction paras with
  | nil => intro st _ h1 h2; exact ⟨h1, h2⟩
  | cons p ps ih =>
    intro st hall h1 h2
    rw [List.foldl_cons]
    apply ih _ (fun q hq => hall q (by simp [hq]))
    · intro c hc
      unfold chunk_text_step at hc
      split at hc
      · exact h1 c hc
      · split at hc
        · rename_i hcur
          rcases List.mem_append.mp hc with hx | hx
          · exact h1 c hx
          · rw [List.mem_singleton.mp hx]
            rcases h2 with h | h | h
            · exact absurd h hcur
            · exact Or.inl h
            · exact Or.inr h
        · exact h1 c hc
    · unfold chunk_text_step
      split
      · rename_i hlt
        right; left
        simp only [List.length_append, nl2, List.length_cons, List.length_nil]
        omega
      · right; right
        exact ⟨p, hall p (by simp), rfl⟩

/-! ## Chunk size claims -/

/-- C6 (counterexample): the size bound as stated is false: with
`max_chars = 8`, `overlap_chars = 4` on `"Aa. Bb\n\nCc. Dd\n\nE"` the
chunker emits the chunk `"Bb\n\nCc. Dd\n\n"` of length 12 > 8, which is not
a single oversize sentence unit of any section (the overlap prefix
`"Bb\n\n"` was prepended to an ordinary section). -/
theorem chunk_size_counterexample :
    ¬ (∀ mc oc text ch, ch ∈ SmartChunker.chunk_text mc oc text →
        ch.text.length ≤ mc ∨
        (∃ sec ∈ split_by_sections text, ch.text ∈ sentenceUnits sec
          ∧ mc < ch.text.length)) := by
  intro h
  have h2 := h 8 4 (str "Aa. Bb\n\nCc. Dd\n\nE")
  revert h2
  decide

/-- C6 (amended): every overlap-aware chunk's text is at most `max_chars`
plus the length of its recorded overlap prefix, except chunks consisting of
a single sentence unit longer than `max_chars` (again with the overlap
prepended); every legacy chunk is shorter than `max_chars + 2` except
chunks that are a single oversize paragraph with its `"\n\n"` terminator. -/
theorem chunk_size_amended :
    (∀ mc oc text ch, ch ∈ SmartChunker.chunk_text mc oc text →
      chunkSizeOK mc (split_by_sections text) ch)
    ∧ (∀ text mc c, c ∈ chunk_text text mc →
      c.length < mc + 2 ∨ ∃ para ∈ pySplitNl2 text, c = para ++ nl2) := by
  constructor
  · intro mc oc text ch hch
    obtain ⟨g1, g2⟩ := sc_fold_size mc oc (split_by_sections text)
      (split_by_sections text) ⟨[], [], [], 0⟩ (fun s hs => hs) (by simp) (by simp)
    unfold SmartChunker.chunk_text scFinish at hch
    split at hch
    · rcases List.mem_append.mp hch with hx | hx
      · exact g1 ch hx
      · rw [List.mem_singleton.mp hx]
        exact Or.inl g2
    · exact g1 ch hch
  · intro text mc c hc
    obtain ⟨g1, g2⟩ := chunk_fold_size mc (pySplitNl2 text) (pySplitNl2 text)
      ⟨[], []⟩ (fun p hp => hp) (by simp) (by simp)
    unfold chunk_text legacyFinish at hc
    split at hc
    · rename_i hcur
      rcases List.mem_append.mp hc with hx | hx
      · exact g1 c hx
      · obtain he := List.mem_singleton.mp hx
        subst he
        rcases g2 with h | h | h
        · exact absurd h hcur
        · exact Or.inl h
        · exact Or.inr h
    · exact g1 c hc

/-- C6 witness: the amended bound applied to a concrete chunk that carries
an overlap prefix (text length 12 = 8 + overlap 4). -/
theorem chunk_size_amended_witness :
    ({ text := str "Bb\n\nCc. Dd\n\n", index := 1, has_overlap := true,
       boundary_type := "section", previous_context := str "Bb\n\n" } : Chunk)
        ∈ SmartChunker.chunk_text 8 4 (str "Aa. Bb\n\nCc. Dd\n\nE")
    ∧ chunkSizeOK 8 (split_by_sections (str "Aa. Bb\n\nCc. Dd\n\nE"))
        { text := str "Bb\n\nCc. Dd\n\n", index := 1, has_overlap := true,
          boundary_type := "section", previous_context := str "Bb\n\n" } :=
  ⟨by decide, chunk_size_amended.1 8 4 (str "Aa. Bb\n\nCc. Dd\n\nE") _ (by decide)⟩

/-- C4 witness: the amended round-trip applied at a concrete input whose
second chunk carries a non-trivial overlap prefix. -/
theorem chunk_round_trip_amended_witness :
    (∀ p ∈ reSplit secMatch (str "Aa. Bb\n\nCc"), ∃ c ∈ p.1, isSpace c = false)
    ∧ (∀ s ∈ split_by_sections (str "Aa. Bb\n\nCc"), s.length ≤ 8)
    ∧ ((SmartChunker.chunk_text 8 3 (str "Aa. Bb\n\nCc")).map strippedText).flatten
        = str "Aa. Bb\n\nCc" :=
  ⟨by decide, by decide,
    chunk_round_trip_amended.2 (str "Aa. Bb\n\nCc") 8 3 (by decide) (by decide)⟩

/-- C5 witness: the no-zero-length clauses applied at a concrete input. -/
theorem chunk_empty_and_nonzero_amended_witness :
    str "A\n\n" ∈ chunk_text (str "A") 4000 ∧ str "A\n\n" ≠ [] :=
  ⟨by decide, chunk_empty_and_nonzero_amended.2.2.1 (str "A") 4000 (str "A\n\n") (by decide)⟩

/-! ## Helper lemmas: dispatch failure handling -/

theorem clean_translation_self (x : Str) (h : strip x = x) :
    clean_translation x x = x := by
  unfold clean_translation
  split
  · rfl
  · rename_i hx
    rw [h, if_neg hx]
    split <;> rfl

theorem clean_translation_of_strip_empty (x t : Str) (h : strip t = []) :
    clean_translation x t = x := by
  simp [clean_translation, h]

theorem clean_translation_of_guard (x t : Str) (h : strip t ≠ [])
    (hg : guard_phrases.any (fun p => containsSub p (lower (strip t))) = true) :
    clean_translation x t = x := by
  unfold clean_translation
  have ht : t ≠ [] := by
    intro hnil
    rw [hnil] at h
    exact h rfl
  rw [if_neg ht, if_neg h, if_pos hg]

theorem clean_translation_of_valid (x t : Str) (h : strip t ≠ [])
    (hg : guard_phrases.any (fun p => containsSub p (lower (strip t))) = false) :
    clean_translation x t = strip t := by
  unfold clean_translation
  have ht : t ≠ [] := by
    intro hnil
    rw [hnil] at h
    exact h rfl
  rw [if_neg ht, if_neg h, if_neg (by simp [hg])]

theorem clean_translation_ne (x t : Str) (hx : x ≠ []) :
    clean_translation x t ≠ [] := by
  unfold clean_translation
  by_cases h1 : t = []
  · rw [if_pos h1]
    exact hx
  · rw [if_neg h1]
    by_cases h2 : strip t = []
    · rw [if_pos h2]
      exact hx
    · rw [if_neg h2]
      by_cases h3 : guard_phrases.any (fun p => containsSub p (lower (strip t))) = true
      · rw [if_pos h3]
        exact hx
      · rw [if_neg h3]
        exact h2

theorem zipWith_map_get? {α β γ : Type} (f : α → β → γ) (g : α → β) :
    ∀ (l : List α) (i : Nat),
    (List.zipWith f l (l.map g)).get? i = (l.get? i).map (fun x => f x (g x)) := by
  intro l
  induction l with
  | nil => intro i; simp
  | cons x rest ih =>
    intro i
    cases i with
    | zero => simp
    | succ k => simpa using ih k

theorem orch_batch_none (prim : Str → TransResult) :
    ∀ (chunks : List Str) (c : Str), c ∈ chunks → prim c = .exn →
    orch_translate_batch prim chunks = none := by
  intro chunks
  induction chunks with
  | nil => intro c hc; simp at hc
  | cons d rest ih =>
    intro c hc hexn
    rcases List.mem_cons.mp hc with h | h
    · subst h
      simp [orch_translate_batch, hexn]
    · cases hd : prim d with
      | exn => simp [orch_translate_batch, hd]
      | ok t => simp [orch_translate_batch, hd, ih c h hexn]

theorem orch_batch_some (prim : Str → TransResult) :
    ∀ (chunks : List Str), (∀ c ∈ chunks, prim c ≠ .exn) →
    orch_translate_batch prim chunks = some (chunks.map (translate_block prim)) := by
  intro chunks
  induction chunks with
  | nil => intro _; rfl
  | cons d rest ih =>
    intro hall
    cases hd : prim d with
    | exn => exact absurd hd (hall d (by simp))
    | ok t =>
      simp [orch_translate_batch, hd, ih (fun c hc => hall c (by simp [hc])),
        translate_block]

/-! ## Dispatch failure claims (C1) -/

/-- C1 (counterexample): the claim is false for the orchestrator's standard
dispatch (`_translate_chunk_with_progress`), which has no exception guard:
a primitive that raises on the chunk `"B"` aborts the whole batch instead
of substituting the original text. -/
theorem dispatch_failure_counterexample :
    ¬ (∀ (prim : Str → TransResult) (chunks : List Str),
        ∃ res, orch_translate_batch prim chunks = some res
          ∧ res.length = chunks.length
          ∧ ∀ (i : Nat) (h : i < chunks.length),
              unitFails prim (chunks.get ⟨i, h⟩) →
              res.get? i = some (chunks.get ⟨i, h⟩)) := by
  intro h
  obtain ⟨res, hres, -⟩ :=
    h (fun c => if c = str "B" then .exn else .ok c) [str "A", str "B"]
  have hnone : orch_translate_batch (fun c => if c = str "B" then .exn else .ok c)
      [str "A", str "B"] = none := by decide
  rw [hnone] at hres
  exact Option.noConfusion hres

/-- C1 (amended): the failure policy holds for the PDF formatting service:
for every batch of (stripped, as extracted) page texts, the dispatch
returns one result per item; a unit whose primitive call raises or returns
an empty / whitespace-only response gets its original text, a guard-refusal
response gets the original text, a genuine translation is kept (stripped),
and no result is ever the empty string.  In the orchestrator's standard
path, by contrast, there is no guard: any raising unit aborts the whole
batch, and when no unit raises the raw outputs (including empty strings)
are kept. -/
theorem dispatch_failure_amended :
    (∀ (prim : Str → TransResult) (items : List Str) (i : Nat) (h : i < items.length),
      (pdf_translate_batch prim items).length = items.length
      ∧ (strip (items.get ⟨i, h⟩) = items.get ⟨i, h⟩ →
          (unitFails prim (items.get ⟨i, h⟩) →
            (pdf_translate_batch prim items).get? i = some (items.get ⟨i, h⟩))
          ∧ (∀ t, prim (items.get ⟨i, h⟩) = .ok t → strip t ≠ [] →
              guard_phrases.any (fun p => containsSub p (lower (strip t))) = true →
              (pdf_translate_batch prim items).get? i = some (items.get ⟨i, h⟩))
          ∧ (∀ t, prim (items.get ⟨i, h⟩) = .ok t → strip t ≠ [] →
              guard_phrases.any (fun p => containsSub p (lower (strip t))) = false →
              (pdf_translate_batch prim items).get? i = some (strip t))
          ∧ (items.get ⟨i, h⟩ ≠ [] →
              ∀ r, (pdf_translate_batch prim items).get? i = some r → r ≠ [])))
    ∧ (∀ (prim : Str → TransResult) (chunks : List Str) (c : Str),
        c ∈ chunks → prim c = .exn → orch_translate_batch prim chunks = none)
    ∧ (∀ (prim : Str → TransResult) (chunks : List Str),
        (∀ c ∈ chunks, prim c ≠ .exn) →
        orch_translate_batch prim chunks = some (chunks.map (translate_block prim))) := by
  refine ⟨?_, fun prim chunks => orch_batch_none prim chunks, orch_batch_some⟩
  intro prim items i h
  have hget : items.get? i = some (items.get ⟨i, h⟩) := List.get?_eq_get h
  have hres : (pdf_translate_batch prim items).get? i
      = some (clean_translation (items.get ⟨i, h⟩)
          (translate_block prim (items.get ⟨i, h⟩))) := by
    unfold pdf_translate_batch
    rw [zipWith_map_get? clean_translation (translate_block prim) items i, hget]
    rfl
  constructor
  · unfold pdf_translate_batch
    simp
  · intro hstrip
    refine ⟨?_, ?_, ?_, ?_⟩
    · intro hfail
      rcases hfail with hexn | ⟨t, hok, ht⟩
      · rw [hres]
        unfold translate_block
        rw [hexn, clean_translation_self _ hstrip]
      · rw [hres]
        unfold translate_block
        rw [hok, clean_translation_of_strip_empty _ _ ht]
    · intro t hok ht hg
      rw [hres]
      unfold translate_block
      rw [hok, clean_translation_of_guard _ _ ht hg]
    · intro t hok ht hg
      rw [hres]
      unfold translate_block
      rw [hok, clean_translation_of_valid _ _ ht hg]
    · intro hne r hr
      rw [hres] at hr
      injection hr with hr
      rw [← hr]
      exact clean_translation_ne _ _ hne

/-- C1 witness: the amended theorem applied to a concrete batch where the
second item's primitive call raises. -/
theorem dispatch_failure_amended_witness :
    strip (str "Boom") = str "Boom"
    ∧ unitFails (fun c => if c = str "Boom" then .exn else .ok c) (str "Boom")
    ∧ (pdf_translate_batch (fun c => if c = str "Boom" then .exn else .ok c)
        [str "Hi", str "Boom"]).get? 1 = some (str "Boom") :=
  ⟨by decide, Or.inl (by decide),
    ((dispatch_failure_amended.1 (fun c => if c = str "Boom" then .exn else .ok c)
      [str "Hi", str "Boom"] 1 (by decide)).2 (by decide)).1 (Or.inl (by decide))⟩

/-! ## Progress claims (C2) -/

/-- C2 (counterexample): the progress sequences of the PPTX and
large-document services are computed from the completing unit's scheduled
index, not from a completed-jobs counter; with 2 units completing in the
order second-then-first the observed sequence is `[90, 45, 100]`, which is
not non-decreasing. -/
theorem progress_monotone_counterexample :
    ¬ (∀ (total : Nat) (order : List Nat), order.Perm (List.range total) →
        List.Chain' (· ≤ ·) (pptxProgressSeq total order)
        ∧ (pptxProgressSeq total order).getLast? = some 100
        ∧ List.Chain' (· ≤ ·) (largeDocProgressSeq total order)) := by
  intro h
  obtain ⟨h1, -, -⟩ := h 2 [1, 0] (by decide)
  have hseq : pptxProgressSeq 2 [1, 0] = [90, 45, 100] := by decide
  rw [hseq] at h1
  rcases List.chain'_cons.mp h1 with ⟨hle, -⟩
  omega

/-- C2 (amended): the dispatch-phase progress values are
`(index + 1) / total` scaled into the sub-range, where `index` is the
completing unit's scheduled index; hence the observed sequence always ends
with the final `100`, and it is non-decreasing when units complete in
index order, but not for arbitrary completion orders. -/
theorem progress_monotone_amended (total : Nat) (htot : 0 < total) :
    (List.Chain' (· ≤ ·) (pptxProgressSeq total (List.range total))
      ∧ List.Chain' (· ≤ ·) (largeDocProgressSeq total (List.range total)))
    ∧ (∀ order : List Nat,
        (pptxProgressSeq total order).getLast? = some 100
        ∧ (largeDocProgressSeq total order).getLast? = some 100) := by
  have hmono : ∀ i j : Nat, i ≤ j → ((i + 1) * 90) / total ≤ ((j + 1) * 90) / total :=
    fun i j hij => Nat.div_le_div_right (Nat.mul_le_mul_right 90 (by omega))
  have hbound : ∀ i : Nat, i < total → ((i + 1) * 90) / total ≤ 90 := by
    intro i hi
    calc ((i + 1) * 90) / total ≤ (total * 90) / total :=
          Nat.div_le_div_right (Nat.mul_le_mul_right 90 (by omega))
      _ = 90 := by rw [Nat.mul_comm, Nat.mul_div_cancel 90 htot]
  have hchainmap : ∀ f : Nat → Nat, (∀ i j, i ≤ j → f i ≤ f j) →
      List.Chain' (· ≤ ·) ((List.range total).map f) := by
    intro f hf
    apply List.Pairwise.chain'
    rw [List.pairwise_map]
    exact (List.pairwise_lt_range total).imp (fun hab => hf _ _ (Nat.le_of_lt hab))
  have hlastle : ∀ (f : Nat → Nat), (∀ i, i < total → f i ≤ 100) →
      ∀ x ∈ ((List.range total).map f).getLast?, x ≤ 100 := by
    intro f hf x hx
    have hmem := List.mem_of_mem_getLast? hx
    obtain ⟨i, hi, hfx⟩ := List.mem_map.mp hmem
    rw [← hfx]
    exact hf i (List.mem_range.mp hi)
  constructor
  · constructor
    · unfold pptxProgressSeq
      rw [List.chain'_append]
      refine ⟨hchainmap _ (fun i j hij => hmono i j hij), List.chain'_singleton 100, ?_⟩
      intro x hx y hy
      simp only [List.head?_cons, Option.mem_def, Option.some.injEq] at hy
      rw [← hy]
      exact hlastle _ (fun i hi => Nat.le_trans (hbound i hi) (by omega)) x hx
    · unfold largeDocProgressSeq
      rw [List.chain'_cons']
      constructor
      · intro y hy
        rcases htot_cases : total with _ | t
        · omega
        · simp only [htot_cases, List.range_succ_eq_map, List.map_cons,
            List.cons_append, List.head?_cons, Option.mem_def, Option.some.injEq] at hy
          rw [← hy]
          unfold largeDocProgressVal
          exact Nat.le_add_right 5 _
      · rw [List.chain'_append]
        refine ⟨hchainmap _ (fun i j hij => by
            unfold largeDocProgressVal
            have := hmono i j hij
            omega), List.chain'_singleton 100, ?_⟩
        intro x hx y hy
        simp only [List.head?_cons, Option.mem_def, Option.some.injEq] at hy
        rw [← hy]
        refine hlastle _ (fun i hi => ?_) x hx
        unfold largeDocProgressVal
        have := hbound i hi
        omega
  · intro order
    constructor
    · unfold pptxProgressSeq
      exact List.getLast?_concat _
    · unfold largeDocProgressSeq
      rw [← List.cons_append]
      exact List.getLast?_concat _

/-- C2 witness: the amended theorem applied at `total = 2`. -/
theorem progress_monotone_amended_witness :
    0 < 2
    ∧ ((List.Chain' (· ≤ ·) (pptxProgressSeq 2 (List.range 2))
        ∧ List.Chain' (· ≤ ·) (largeDocProgressSeq 2 (List.range 2)))
      ∧ (∀ order : List Nat,
          (pptxProgressSeq 2 order).getLast? = some 100
          ∧ (largeDocProgressSeq 2 order).getLast? = some 100)) :=
  ⟨by decide, progress_monotone_amended 2 (by decide)⟩

/-! ## Validation claims (C7, C8) -/

/-- C8 (confirmed): when the validator's output cannot be parsed
(`json.JSONDecodeError`), `validate_translation` returns the synthetic
report with `quality_score = 0`, exactly one critical-severity issue and
recommendation `retranslate`; the embedding is total over every primitive
outcome (including a raising primitive), reflecting that no exception
propagates out of the component. -/
theorem validation_parse_failure_synthetic (source_text : Str) :
    (validate_translation .invalidJson source_text).quality_score = 0
    ∧ (validate_translation .invalidJson source_text).issues
        = [{ severity := str "critical", kind := str "validation_error",
             description := str "Validator returned invalid JSON",
             location := str "N/A" }]
    ∧ (validate_translation .invalidJson source_text).recommendation
        = str "retranslate" :=
  ⟨rfl, rfl, rfl⟩

/-- C7 (confirmed): a sampled unit is re-submitted to the translation
primitive exactly once iff its first validation scores below 60 or
recommends `retranslate`; on retry the new translation replaces the unit's
entry in place and the recorded report is the re-validation of the new
output; otherwise nothing is resubmitted and the first report is recorded;
in no case is the primitive invoked more than once. -/
theorem validate_retry_policy
    (vp : Str → Str → ValidatorResponse) (tp : Str → Str)
    (src : Str) (lst : List Str) (idx : Nat) (h : idx < lst.length) :
    ((validate_and_retry_chunk vp tp src lst idx).2.2 = [src]
      ↔ ((validate_translation (vp src (lst.get ⟨idx, h⟩)) src).quality_score < 60
        ∨ (validate_translation (vp src (lst.get ⟨idx, h⟩)) src).recommendation
            = str "retranslate"))
    ∧ (((validate_translation (vp src (lst.get ⟨idx, h⟩)) src).quality_score < 60
        ∨ (validate_translation (vp src (lst.get ⟨idx, h⟩)) src).recommendation
            = str "retranslate") →
        validate_and_retry_chunk vp tp src lst idx
          = (lst.set idx (tp src),
             validate_translation (vp src (tp src)) src, [src]))
    ∧ (¬ ((validate_translation (vp src (lst.get ⟨idx, h⟩)) src).quality_score < 60
        ∨ (validate_translation (vp src (lst.get ⟨idx, h⟩)) src).recommendation
            = str "retranslate") →
        validate_and_retry_chunk vp tp src lst idx
          = (lst, validate_translation (vp src (lst.get ⟨idx, h⟩)) src, []))
    ∧ (validate_and_retry_chunk vp tp src lst idx).2.2.length ≤ 1 := by
  have hgetD : lst.getD idx [] = lst.get ⟨idx, h⟩ := List.getD_eq_get lst [] h
  unfold validate_and_retry_chunk
  rw [hgetD]
  by_cases hcond : (validate_translation (vp src (lst.get ⟨idx, h⟩)) src).quality_score < 60
      ∨ (validate_translation (vp src (lst.get ⟨idx, h⟩)) src).recommendation
          = str "retranslate"
  · rw [if_pos hcond]
    exact ⟨⟨fun _ => hcond, fun _ => rfl⟩, fun _ => rfl, fun hn => absurd hcond hn,
      by simp⟩
  · rw [if_neg hcond]
    refine ⟨⟨fun hx => ?_, fun hx => absurd hx hcond⟩, fun hx => absurd hx hcond,
      fun _ => rfl, by simp⟩
    exact absurd hx (by simp)

/-- C7 witness: a first report with score 59 (and recommendation `review`)
triggers the single retry: the unit is replaced in place and the log of
primitive submissions is exactly `[src]`. -/
theorem validate_retry_policy_witness :
    (0 : Nat) < 1
    ∧ validate_and_retry_chunk
        (fun _ tr => .parsed
          { quality_score := if tr = str "x" then 59 else 95,
            accuracy_score := 0, completeness_score := 0, fluency_score := 0,
            terminology_score := 0, issues := [],
            overall_assessment := str "ok", recommendation := str "review",
            validation_type := str "full", text_length := none })
        (fun s => s ++ str "!") (str "s") [str "x"] 0
      = ([str "s!"],
         validate_translation
           ((fun (_ tr : Str) => ValidatorResponse.parsed
              { quality_score := if tr = str "x" then 59 else 95,
                accuracy_score := 0, completeness_score := 0, fluency_score := 0,
                terminology_score := 0, issues := [],
                overall_assessment := str "ok", recommendation := str "review",
                validation_type := str "full", text_length := none })
             (str "s") (str "s!")) (str "s"),
         [str "s"]) :=
  ⟨by decide,
    (validate_retry_policy
      (fun _ tr => .parsed
        { quality_score := if tr = str "x" then 59 else 95,
          accuracy_score := 0, completeness_score := 0, fluency_score := 0,
          terminology_score := 0, issues := [],
          overall_assessment := str "ok", recommendation := str "review",
          validation_type := str "full", text_length := none })
      (fun s => s ++ str "!") (str "s") [str "x"] 0 (by decide)).2.1
      (Or.inl (by decide))⟩

/-! ## Concurrency bound (C9) -/

theorem runningCount_replicate_pending (n : Nat) :
    runningCount (List.replicate n JobPhase.pending) = 0 := by
  induction n with
  | zero => rfl
  | succ k ih =>
    rw [List.replicate_succ]
    simp only [runningCount, List.countP_cons] at ih ⊢
    simp [ih]

theorem countP_set_eq (p : JobPhase → Bool) :
    ∀ (l : List JobPhase) (i : Nat) (v : JobPhase) (h : i < l.length),
    (l.set i v).countP p + (if p (l.get ⟨i, h⟩) then 1 else 0)
      = l.countP p + (if p v then 1 else 0) := by
  intro l
  induction l with
  | nil => intro i v h; simp at h
  | cons x rest ih =>
    intro i v h
    cases i with
    | zero =>
      show List.countP p (v :: rest) + (if p x = true then 1 else 0)
        = List.countP p (x :: rest) + (if p v = true then 1 else 0)
      simp only [List.countP_cons]
      omega
    | succ k =>
      have hk : k < rest.length := by simpa using h
      have hik := ih k v hk
      simp only [List.set_cons_succ, List.countP_cons, List.get_cons_succ]
      omega

theorem sem_running_le (limit n : Nat) :
    ∀ phases, SemReachable limit n phases → runningCount phases ≤ limit := by
  intro phases h
  induction h with
  | init => simp [runningCount_replicate_pending]
  | step s t hs hstep ih =>
    cases hstep with
    | start i hi hp hcap =>
      have hc := countP_set_eq (fun p => p = JobPhase.running) s i JobPhase.running hi
      rw [hp] at hc
      simp only [runningCount] at ih hcap ⊢
      simp at hc
      omega
    | finish i hi hp =>
      have hc := countP_set_eq (fun p => p = JobPhase.running) s i JobPhase.done hi
      rw [hp] at hc
      simp only [runningCount] at ih ⊢
      simp at hc
      omega

/-- C9 (confirmed): for a concurrency limit in {1, 5, 20} (indeed for any
limit), in every state reachable while dispatching a batch of jobs through
the semaphore gate, the number of simultaneous in-flight translation
primitive invocations never exceeds the limit. -/
theorem concurrency_bound (limit n : Nat)
    (_hl : limit = 1 ∨ limit = 5 ∨ limit = 20) :
    ∀ phases, SemReachable limit n phases → runningCount phases ≤ limit :=
  sem_running_le limit n

/-- C9 witness: the bound applied to a concrete reachable two-job state
with one job in flight under limit 5. -/
theorem concurrency_bound_witness :
    ((5 : Nat) = 1 ∨ (5 : Nat) = 5 ∨ (5 : Nat) = 20)
    ∧ runningCount ((List.replicate 2 JobPhase.pending).set 0 JobPhase.running) ≤ 5 :=
  ⟨by decide,
    concurrency_bound 5 2 (by decide) _
      (SemReachable.step _ _ SemReachable.init
        (SemStep.start _ 0 (by decide) (by decide) (by decide)))⟩

/-! ## Helper lemmas: structured-key dictionaries -/

theorem lookup_cons_hit {κ : Type} [DecidableEq κ] (q : κ × Str) (m : List (κ × Str))
    (k : κ) (h : q.1 = k) : lookupKey (q :: m) k = some q.2 := by
  unfold lookupKey
  rw [List.find?_cons_of_pos _ (by simp [h])]
  rfl

theorem lookup_cons_miss {κ : Type} [DecidableEq κ] (q : κ × Str) (m : List (κ × Str))
    (k : κ) (h : q.1 ≠ k) : lookupKey (q :: m) k = lookupKey m k := by
  unfold lookupKey
  rw [List.find?_cons_of_neg _ (by simp [h])]

theorem lookup_none_of {κ : Type} [DecidableEq κ] :
    ∀ (m : List (κ × Str)) (k : κ), (∀ q ∈ m, q.1 ≠ k) → lookupKey m k = none := by
  intro m
  induction m with
  | nil => intro k _; rfl
  | cons q rest ih =>
    intro k h
    rw [lookup_cons_miss q rest k (h q (by simp))]
    exact ih k (fun p hp => h p (by simp [hp]))

theorem lookup_append_left {κ : Type} [DecidableEq κ] :
    ∀ (m1 m2 : List (κ × Str)) (k : κ) (v : Str), lookupKey m1 k = some v →
    lookupKey (m1 ++ m2) k = some v := by
  intro m1
  induction m1 with
  | nil => intro m2 k v h; exact absurd h (by simp [lookupKey])
  | cons q rest ih =>
    intro m2 k v h
    by_cases hq : q.1 = k
    · rw [lookup_cons_hit q rest k hq] at h
      rw [List.cons_append, lookup_cons_hit q (rest ++ m2) k hq]
      exact h
    · rw [lookup_cons_miss q rest k hq] at h
      rw [List.cons_append, lookup_cons_miss q (rest ++ m2) k hq]
      exact ih m2 k v h

theorem lookup_append_none {κ : Type} [DecidableEq κ] :
    ∀ (m1 m2 : List (κ × Str)) (k : κ), lookupKey m1 k = none →
    lookupKey (m1 ++ m2) k = lookupKey m2 k := by
  intro m1
  induction m1 with
  | nil => intro m2 k _; rfl
  | cons q rest ih =>
    intro m2 k h
    by_cases hq : q.1 = k
    · rw [lookup_cons_hit q rest k hq] at h
      exact Option.noConfusion h
    · rw [lookup_cons_miss q rest k hq] at h
      rw [List.cons_append, lookup_cons_miss q (rest ++ m2) k hq]
      exact ih m2 k h

theorem buildMap_append {κ : Type} (a b : List (Str × κ)) (f : Str → Str) :
    buildMap (a ++ b) f = buildMap a f ++ buildMap b f := by
  simp [buildMap]

/-- Position-faithful description of one `collectTexts` entry: it is the
stripped, non-whitespace text of the item its key addresses. -/
theorem collectTexts_mem {κ : Type} (mk : Nat → κ) :
    ∀ (texts : List Str) (j0 : Nat) (q : Str × κ), q ∈ collectTexts mk j0 texts →
    ∃ i t, q.2 = mk (j0 + i) ∧ texts.get? i = some t
      ∧ q.1 = strip t ∧ strip t ≠ [] := by
  intro texts
  induction texts with
  | nil => intro j0 q hq; simp [collectTexts] at hq
  | cons t rest ih =>
    intro j0 q hq
    rcases List.mem_append.mp hq with h | h
    · split at h
      · rename_i ht
        rw [List.mem_singleton.mp h]
        exact ⟨0, t, by simp, by simp, rfl, ht⟩
      · simp at h
    · obtain ⟨i, t2, hk, hget, hv, hne⟩ := ih (j0 + 1) q h
      exact ⟨i + 1, t2, by rw [hk]; congr 1; omega, by simpa using hget, hv, hne⟩

theorem lookup_collectTexts {κ : Type} [DecidableEq κ] (mk : Nat → κ)
    (hinj : ∀ a b, mk a = mk b → a = b) :
    ∀ (texts : List Str) (j0 i : Nat),
    lookupKey (buildMap (collectTexts mk j0 texts) (fun t => t)) (mk (j0 + i))
      = (texts.get? i).bind stripOpt := by
  intro texts
  induction texts with
  | nil => intro j0 i; simp [collectTexts, buildMap, lookupKey]
  | cons t rest ih =>
    intro j0 i
    have hsplit : collectTexts mk j0 (t :: rest)
        = (if strip t ≠ [] then [(strip t, mk j0)] else [])
          ++ collectTexts mk (j0 + 1) rest := rfl
    rw [hsplit, buildMap_append]
    have hrest_none : ∀ k0 : Nat, (∀ i2, j0 + 1 ≤ i2 → k0 ≠ i2) →
        lookupKey (buildMap (collectTexts mk (j0 + 1) rest) (fun t => t)) (mk k0)
          = none := by
      intro k0 hk0
      apply lookup_none_of
      intro q hq
      obtain ⟨e, he, hqe⟩ := List.mem_map.mp hq
      obtain ⟨i2, t2, hk, -, -, -⟩ := collectTexts_mem mk rest (j0 + 1) e he
      rw [← hqe]
      simp only [hk]
      intro heq
      exact hk0 (j0 + 1 + i2) (by omega) (hinj _ _ heq).symm
    cases i with
    | zero =>
      by_cases ht : strip t = []
      · rw [if_neg (by simp [ht])]
        rw [show buildMap ([] : List (Str × κ)) (fun t => t) = [] from rfl]
        simp only [List.nil_append, Nat.add_zero]
        rw [hrest_none j0 (by omega)]
        simp [stripOpt, ht]
      · rw [if_pos (by simp [ht])]
        rw [show buildMap [(strip t, mk j0)] (fun t => t) = [(mk j0, strip t)] from rfl]
        simp only [List.singleton_append, Nat.add_zero]
        rw [lookup_cons_hit (mk j0, strip t) _ (mk j0) rfl]
        simp [stripOpt, ht]
    | succ i2 =>
      have hne : mk j0 ≠ mk (j0 + (i2 + 1)) := by
        intro h
        have := hinj _ _ h
        omega
      have harr : j0 + (i2 + 1) = (j0 + 1) + i2 := by omega
      by_cases ht : strip t = []
      · rw [if_neg (by simp [ht])]
        rw [show buildMap ([] : List (Str × κ)) (fun t => t) = [] from rfl]
        simp only [List.nil_append]
        rw [harr, ih (j0 + 1) i2]
        simp
      · rw [if_pos (by simp [ht])]
        rw [show buildMap [(strip t, mk j0)] (fun t => t) = [(mk j0, strip t)] from rfl]
        simp only [List.singleton_append]
        rw [lookup_cons_miss (mk j0, strip t) _ (mk (j0 + (i2 + 1))) hne]
        rw [harr, ih (j0 + 1) i2]
        simp

theorem stripOpt_getD (t : Str) : (stripOpt t).getD t = pyStripKeep t := by
  unfold stripOpt pyStripKeep
  split <;> simp

/-! ## Helper lemmas: DOCX table collection levels -/

theorem docx_collect_cell_paras_mem (e r c : Nat) :
    ∀ (paras : List DocxPara) (p0 : Nat) (q : Str × DocxKey),
    q ∈ docx_collect_cell_paras e r c p0 paras →
    ∃ p j t, q.2 = DocxKey.tab e r c (p0 + p) j
      ∧ (paras.get? p).bind (fun para => (para.runs.map DocxRun.text).get? j) = some t
      ∧ q.1 = strip t ∧ strip t ≠ [] := by
  intro paras
  induction paras with
  | nil => intro p0 q hq; simp [docx_collect_cell_paras] at hq
  | cons para rest ih =>
    intro p0 q hq
    rcases List.mem_append.mp hq with h | h
    · obtain ⟨i, t, hk, hget, hv, hne⟩ :=
        collectTexts_mem (DocxKey.tab e r c p0) (para.runs.map DocxRun.text) 0 q h
      refine ⟨0, i, t, ?_, by simpa using hget, hv, hne⟩
      rw [hk]
      simp
    · obtain ⟨p, j, t, hk, hget, hv, hne⟩ := ih (p0 + 1) q h
      refine ⟨p + 1, j, t, ?_, by simpa using hget, hv, hne⟩
      rw [hk]
      congr 1
      omega

theorem lookup_docx_cell_paras (e r c : Nat) :
    ∀ (paras : List DocxPara) (p0 p j : Nat),
    lookupKey (buildMap (docx_collect_cell_paras e r c p0 paras) (fun t => t))
        (DocxKey.tab e r c (p0 + p) j)
      = ((paras.get? p).bind
          (fun para => (para.runs.map DocxRun.text).get? j)).bind stripOpt := by
  intro paras
  induction paras with
  | nil => intro p0 p j; simp [docx_collect_cell_paras, buildMap, lookupKey]
  | cons para rest ih =>
    intro p0 p j
    have hsplit : docx_collect_cell_paras e r c p0 (para :: rest)
        = collectTexts (DocxKey.tab e r c p0) 0 (para.runs.map DocxRun.text)
          ++ docx_collect_cell_paras e r c (p0 + 1) rest := rfl
    rw [hsplit, buildMap_append]
    have hinj : ∀ a b : Nat, DocxKey.tab e r c p0 a = DocxKey.tab e r c p0 b → a = b :=
      fun a b h => by simpa using h
    cases p with
    | zero =>
      have hL : lookupKey
          (buildMap (collectTexts (DocxKey.tab e r c p0) 0
            (para.runs.map DocxRun.text)) (fun t => t)) (DocxKey.tab e r c p0 j)
          = ((para.runs.map DocxRun.text).get? j).bind stripOpt := by
        simpa using lookup_collectTexts (DocxKey.tab e r c p0) hinj
          (para.runs.map DocxRun.text) 0 j
      simp only [Nat.add_zero]
      cases hx : ((para.runs.map DocxRun.text).get? j).bind stripOpt with
      | some v =>
        rw [lookup_append_left _ _ _ v (hL.trans hx)]
        simpa using hx.symm
      | none =>
        rw [lookup_append_none _ _ _ (hL.trans hx)]
        rw [lookup_none_of _ _ ?_]
        · simpa using hx.symm
        · intro q hq
          obtain ⟨en, he, hqe⟩ := List.mem_map.mp hq
          obtain ⟨p2, j2, t2, hk, -, -, -⟩ :=
            docx_collect_cell_paras_mem e r c rest (p0 + 1) en he
          rw [← hqe]
          simp only [hk]
          intro heq
          have : p0 + 1 + p2 = p0 := by
            have h2 := heq
            simp only [DocxKey.tab.injEq] at h2
            omega
          omega
    | succ s =>
      have harr : p0 + (s + 1) = (p0 + 1) + s := by omega
      have hLnone : lookupKey
          (buildMap (collectTexts (DocxKey.tab e r c p0) 0
            (para.runs.map DocxRun.text)) (fun t => t))
          (DocxKey.tab e r c (p0 + (s + 1)) j) = none := by
        apply lookup_none_of
        intro q hq
        obtain ⟨en, he, hqe⟩ := List.mem_map.mp hq
        obtain ⟨i2, t2, hk, -, -, -⟩ :=
          collectTexts_mem (DocxKey.tab e r c p0) (para.runs.map DocxRun.text) 0 en he
        rw [← hqe]
        simp only [hk]
        intro heq
        simp only [DocxKey.tab.injEq] at heq
        omega
      rw [lookup_append_none _ _ _ hLnone, harr, ih (p0 + 1) s j]
      simp

theorem docx_collect_cells_mem (e r : Nat) :
    ∀ (cells : List DocxCell) (c0 : Nat) (q : Str × DocxKey),
    q ∈ docx_collect_cells e r c0 cells →
    ∃ c p j t, q.2 = DocxKey.tab e r (c0 + c) p j
      ∧ (cells.get? c).bind (fun cell => (cell.paragraphs.get? p).bind
          (fun para => (para.runs.map DocxRun.text).get? j)) = some t
      ∧ q.1 = strip t ∧ strip t ≠ [] := by
  intro cells
  induction cells with
  | nil => intro c0 q hq; simp [docx_collect_cells] at hq
  | cons cell rest ih =>
    intro c0 q hq
    rcases List.mem_append.mp hq with h | h
    · obtain ⟨p, j, t, hk, hget, hv, hne⟩ :=
        docx_collect_cell_paras_mem e r c0 cell.paragraphs 0 q h
      refine ⟨0, p, j, t, ?_, by simpa using hget, hv, hne⟩
      rw [hk]
      simp
    · obtain ⟨c, p, j, t, hk, hget, hv, hne⟩ := ih (c0 + 1) q h
      refine ⟨c + 1, p, j, t, ?_, by simpa using hget, hv, hne⟩
      rw [hk]
      congr 1
      omega

theorem lookup_docx_cells (e r : Nat) :
    ∀ (cells : List DocxCell) (c0 c p j : Nat),
    lookupKey (buildMap (docx_collect_cells e r c0 cells) (fun t => t))
        (DocxKey.tab e r (c0 + c) p j)
      = ((cells.get? c).bind (fun cell => (cell.paragraphs.get? p).bind
          (fun para => (para.runs.map DocxRun.text).get? j))).bind stripOpt := by
  intro cells
  induction cells with
  | nil => intro c0 c p j; simp [docx_collect_cells, buildMap, lookupKey]
  | cons cell rest ih =>
    intro c0 c p j
    have hsplit : docx_collect_cells e r c0 (cell :: rest)
        = docx_collect_cell_paras e r c0 0 cell.paragraphs
          ++ docx_collect_cells e r (c0 + 1) rest := rfl
    rw [hsplit, buildMap_append]
    cases c with
    | zero =>
      have hL : lookupKey
          (buildMap (docx_collect_cell_paras e r c0 0 cell.paragraphs) (fun t => t))
          (DocxKey.tab e r c0 p j)
          = ((cell.paragraphs.get? p).bind
              (fun para => (para.runs.map DocxRun.text).get? j)).bind stripOpt := by
        simpa using lookup_docx_cell_paras e r c0 cell.paragraphs 0 p j
      simp only [Nat.add_zero]
      cases hx : ((cell.paragraphs.get? p).bind
          (fun para => (para.runs.map DocxRun.text).get? j)).bind stripOpt with
      | some v =>
        rw [lookup_append_left _ _ _ v (hL.trans hx)]
        simpa using hx.symm
      | none =>
        rw [lookup_append_none _ _ _ (hL.trans hx)]
        rw [lookup_none_of _ _ ?_]
        · simpa using hx.symm
        · intro q hq
          obtain ⟨en, he, hqe⟩ := List.mem_map.mp hq
          obtain ⟨c2, p2, j2, t2, hk, -, -, -⟩ :=
            docx_collect_cells_mem e r rest (c0 + 1) en he
          rw [← hqe]
          simp only [hk]
          intro heq
          simp only [DocxKey.tab.injEq] at heq
          omega
    | succ s =>
      have harr : c0 + (s + 1) = (c0 + 1) + s := by omega
      have hLnone : lookupKey
          (buildMap (docx_collect_cell_paras e r c0 0 cell.paragraphs) (fun t => t))
          (DocxKey.tab e r (c0 + (s + 1)) p j) = none := by
        apply lookup_none_of
        intro q hq
        obtain ⟨en, he, hqe⟩ := List.mem_map.mp hq
        obtain ⟨p2, j2, t2, hk, -, -, -⟩ :=
          docx_collect_cell_paras_mem e r c0 cell.paragraphs 0 en he
        rw [← hqe]
        simp only [hk]
        intro heq
        simp only [DocxKey.tab.injEq] at heq
        omega
      rw [lookup_append_none _ _ _ hLnone, harr, ih (c0 + 1) s p j]
      simp

theorem docx_collect_rows_mem (e : Nat) :
    ∀ (rows : List (List DocxCell)) (r0 : Nat) (q : Str × DocxKey),
    q ∈ docx_collect_rows e r0 rows →
    ∃ r c p j t, q.2 = DocxKey.tab e (r0 + r) c p j
      ∧ (rows.get? r).bind (fun row => (row.get? c).bind
          (fun cell => (cell.paragraphs.get? p).bind
            (fun para => (para.runs.map DocxRun.text).get? j))) = some t
      ∧ q.1 = strip t ∧ strip t ≠ [] := by
  intro rows
  induction rows with
  | nil => intro r0 q hq; simp [docx_collect_rows] at hq
  | cons row rest ih =>
    intro r0 q hq
    rcases List.mem_append.mp hq with h | h
    · obtain ⟨c, p, j, t, hk, hget, hv, hne⟩ := docx_collect_cells_mem e r0 row 0 q h
      refine ⟨0, c, p, j, t, ?_, by simpa using hget, hv, hne⟩
      rw [hk]
      simp
    · obtain ⟨r, c, p, j, t, hk, hget, hv, hne⟩ := ih (r0 + 1) q h
      refine ⟨r + 1, c, p, j, t, ?_, by simpa using hget, hv, hne⟩
      rw [hk]
      congr 1
      omega

theorem lookup_docx_rows (e : Nat) :
    ∀ (rows : List (List DocxCell)) (r0 r c p j : Nat),
    lookupKey (buildMap (docx_collect_rows e r0 rows) (fun t => t))
        (DocxKey.tab e (r0 + r) c p j)
      = ((rows.get? r).bind (fun row => (row.get? c).bind
          (fun cell => (cell.paragraphs.get? p).bind
            (fun para => (para.runs.map DocxRun.text).get? j)))).bind stripOpt := by
  intro rows
  induction rows with
  | nil => intro r0 r c p j; simp [docx_collect_rows, buildMap, lookupKey]
  | cons row rest ih =>
    intro r0 r c p j
    have hsplit : docx_collect_rows e r0 (row :: rest)
        = docx_collect_cells e r0 0 row ++ docx_collect_rows e (r0 + 1) rest := rfl
    rw [hsplit, buildMap_append]
    cases r with
    | zero =>
      have hL : lookupKey
          (buildMap (docx_collect_cells e r0 0 row) (fun t => t))
          (DocxKey.tab e r0 c p j)
          = ((row.get? c).bind (fun cell => (cell.paragraphs.get? p).bind
              (fun para => (para.runs.map DocxRun.text).get? j))).bind stripOpt := by
        simpa using lookup_docx_cells e r0 row 0 c p j
      simp only [Nat.add_zero]
      cases hx : ((row.get? c).bind (fun cell => (cell.paragraphs.get? p).bind
          (fun para => (para.runs.map DocxRun.text).get? j))).bind stripOpt with
      | some v =>
        rw [lookup_append_left _ _ _ v (hL.trans hx)]
        simpa using hx.symm
      | none =>
        rw [lookup_append_none _ _ _ (hL.trans hx)]
        rw [lookup_none_of _ _ ?_]
        · simpa using hx.symm
        · intro q hq
          obtain ⟨en, he, hqe⟩ := List.mem_map.mp hq
          obtain ⟨r2, c2, p2, j2, t2, hk, -, -, -⟩ :=
            docx_collect_rows_mem e rest (r0 + 1) en he
          rw [← hqe]
          simp only [hk]
          intro heq
          simp only [DocxKey.tab.injEq] at heq
          omega
    | succ s =>
      have harr : r0 + (s + 1) = (r0 + 1) + s := by omega
      have hLnone : lookupKey
          (buildMap (docx_collect_cells e r0 0 row) (fun t => t))
          (DocxKey.tab e (r0 + (s + 1)) c p j) = none := by
        apply lookup_none_of
        intro q hq
        obtain ⟨en, he, hqe⟩ := List.mem_map.mp hq
        obtain ⟨c2, p2, j2, t2, hk, -, -, -⟩ := docx_collect_cells_mem e r0 row 0 en he
        rw [← hqe]
        simp only [hk]
        intro heq
        simp only [DocxKey.tab.injEq] at heq
        omega
      rw [lookup_append_none _ _ _ hLnone, harr, ih (r0 + 1) s c p j]
      simp

/-! ## Helper lemmas: DOCX element and document levels -/

theorem docx_collect_element_mem (e : Nat) (el : DocxElement) (q : Str × DocxKey)
    (hq : q ∈ docx_collect_element e el) :
    docxKeyElem q.2 = e
    ∧ ∃ t, docxElNav el q.2 = some t ∧ q.1 = strip t ∧ strip t ≠ [] := by
  cases el with
  | paragraph runs txt fmt =>
    obtain ⟨i, t, hk, hget, hv, hne⟩ :=
      collectTexts_mem (DocxKey.par e) (runs.map DocxRun.text) 0 q hq
    simp only [Nat.zero_add] at hk
    exact ⟨by rw [hk]; rfl, t, by rw [hk]; simpa [docxElNav] using hget, hv, hne⟩
  | table rows fmt =>
    obtain ⟨r, c, p, j, t, hk, hget, hv, hne⟩ := docx_collect_rows_mem e rows 0 q hq
    simp only [Nat.zero_add] at hk
    exact ⟨by rw [hk]; rfl, t, by rw [hk]; simpa [docxElNav] using hget, hv, hne⟩
  | other fmt => simp [docx_collect_element] at hq

theorem lookup_docx_element (e : Nat) (el : DocxElement) (k : DocxKey)
    (hk : docxKeyElem k = e) :
    lookupKey (buildMap (docx_collect_element e el) (fun t => t)) k
      = (docxElNav el k).bind stripOpt := by
  cases el with
  | paragraph runs txt fmt =>
    cases k with
    | par e2 j =>
      have he : e2 = e := hk
      subst he
      have hinj : ∀ a b : Nat, DocxKey.par e2 a = DocxKey.par e2 b → a = b :=
        fun a b h => by simpa using h
      simpa [docxElNav] using
        lookup_collectTexts (DocxKey.par e2) hinj (runs.map DocxRun.text) 0 j
    | tab e2 r c p j =>
      rw [lookup_none_of _ _ ?_]
      · simp [docxElNav]
      · intro q hq
        obtain ⟨en, he, hqe⟩ := List.mem_map.mp hq
        obtain ⟨i, t, hk2, -, -, -⟩ :=
          collectTexts_mem (DocxKey.par e) (runs.map DocxRun.text) 0 en he
        rw [← hqe]
        simp [hk2]
  | table rows fmt =>
    cases k with
    | par e2 j =>
      rw [lookup_none_of _ _ ?_]
      · simp [docxElNav]
      · intro q hq
        obtain ⟨en, he, hqe⟩ := List.mem_map.mp hq
        obtain ⟨r, c, p, j2, t, hk2, -, -, -⟩ := docx_collect_rows_mem e rows 0 en he
        rw [← hqe]
        simp [hk2]
    | tab e2 r c p j =>
      have he : e2 = e := hk
      subst he
      simpa [docxElNav] using lookup_docx_rows e2 rows 0 r c p j
  | other fmt =>
    cases k <;> simp [docx_collect_element, buildMap, lookupKey, docxElNav]

theorem docx_collect_elements_mem :
    ∀ (els : List DocxElement) (e0 : Nat) (q : Str × DocxKey),
    q ∈ docx_collect_elements e0 els →
    ∃ d el t, docxKeyElem q.2 = e0 + d ∧ els.get? d = some el
      ∧ docxElNav el q.2 = some t ∧ q.1 = strip t ∧ strip t ≠ [] := by
  intro els
  induction els with
  | nil => intro e0 q hq; simp [docx_collect_elements] at hq
  | cons el rest ih =>
    intro e0 q hq
    rcases List.mem_append.mp hq with h | h
    · obtain ⟨hke, t, hnav, hv, hne⟩ := docx_collect_element_mem e0 el q h
      exact ⟨0, el, t, by omega, by simp, hnav, hv, hne⟩
    · obtain ⟨d, el2, t, hke, hget, hnav, hv, hne⟩ := ih (e0 + 1) q h
      exact ⟨d + 1, el2, t, by omega, by simpa using hget, hnav, hv, hne⟩

theorem lookup_docx_elements :
    ∀ (els : List DocxElement) (e0 : Nat) (k : DocxKey), e0 ≤ docxKeyElem k →
    lookupKey (buildMap (docx_collect_elements e0 els) (fun t => t)) k
      = ((els.get? (docxKeyElem k - e0)).bind (fun el => docxElNav el k)).bind
          stripOpt := by
  intro els
  induction els with
  | nil => intro e0 k _; simp [docx_collect_elements, buildMap, lookupKey]
  | cons el rest ih =>
    intro e0 k hge
    have hsplit : docx_collect_elements e0 (el :: rest)
        = docx_collect_element e0 el ++ docx_collect_elements (e0 + 1) rest := rfl
    rw [hsplit, buildMap_append]
    by_cases he : docxKeyElem k = e0
    · have hL := lookup_docx_element e0 el k he
      cases hx : (docxElNav el k).bind stripOpt with
      | some v =>
        rw [lookup_append_left _ _ _ v (hL.trans hx)]
        rw [he, Nat.sub_self]
        simpa using hx.symm
      | none =>
        rw [lookup_append_none _ _ _ (hL.trans hx)]
        rw [lookup_none_of _ _ ?_]
        · rw [he, Nat.sub_self]
          simpa using hx.symm
        · intro q hq
          obtain ⟨en, hen, hqe⟩ := List.mem_map.mp hq
          obtain ⟨d, el2, t, hke, -, -, -, -⟩ :=
            docx_collect_elements_mem rest (e0 + 1) en hen
          rw [← hqe]
          intro heq
          rw [show en.2 = k from heq] at hke
          omega
    · have hgt : e0 + 1 ≤ docxKeyElem k := by omega
      have hLnone : lookupKey (buildMap (docx_collect_element e0 el) (fun t => t)) k
          = none := by
        apply lookup_none_of
        intro q hq
        obtain ⟨en, hen, hqe⟩ := List.mem_map.mp hq
        obtain ⟨hke, -⟩ := docx_collect_element_mem e0 el en hen
        rw [← hqe]
        intro heq
        rw [show en.2 = k from heq] at hke
        omega
      rw [lookup_append_none _ _ _ hLnone, ih (e0 + 1) k hgt]
      have harr : docxKeyElem k - e0 = (docxKeyElem k - (e0 + 1)) + 1 := by omega
      rw [harr]
      simp

theorem docx_master_lookup (els : List DocxElement) (k : DocxKey) :
    lookupKey (buildMap (docx_collect els) (fun t => t)) k
      = ((els.get? (docxKeyElem k)).bind (fun el => docxElNav el k)).bind stripOpt := by
  simpa using lookup_docx_elements els 0 k (Nat.zero_le _)

/-! ## Helper lemmas: DOCX application against a faithful dictionary -/

theorem docx_apply_runs_spec (M : List (DocxKey × Str)) (mk : Nat → DocxKey) :
    ∀ (runs : List DocxRun) (j0 : Nat),
    (∀ j, lookupKey M (mk (j0 + j)) = ((runs.map DocxRun.text).get? j).bind stripOpt) →
    docx_apply_runs M mk j0 runs = runs.map docx_run_spec := by
  intro runs
  induction runs with
  | nil => intro j0 _; rfl
  | cons run rest ih =>
    intro j0 h
    have h0 := h 0
    simp only [Nat.add_zero, List.map_cons, List.get?_cons_zero, Option.some_bind] at h0
    show { run with text := (lookupKey M (mk j0)).getD run.text }
        :: docx_apply_runs M mk (j0 + 1) rest
      = docx_run_spec run :: rest.map docx_run_spec
    congr 1
    · rw [h0, stripOpt_getD]
      rfl
    · apply ih
      intro j
      have hj := h (j + 1)
      have harr : j0 + (j + 1) = (j0 + 1) + j := by omega
      rw [harr] at hj
      simpa using hj

theorem docx_apply_cell_paras_spec (M : List (DocxKey × Str)) (e r c : Nat) :
    ∀ (paras : List DocxPara) (p0 : Nat),
    (∀ p j, lookupKey M (DocxKey.tab e r c (p0 + p) j)
      = ((paras.get? p).bind
          (fun para => (para.runs.map DocxRun.text).get? j)).bind stripOpt) →
    docx_apply_cell_paras M e r c p0 paras = paras.map docx_para_spec := by
  intro paras
  induction paras with
  | nil => intro p0 _; rfl
  | cons para rest ih =>
    intro p0 h
    have hruns : docx_apply_runs M (DocxKey.tab e r c p0) 0 para.runs
        = para.runs.map docx_run_spec := by
      apply docx_apply_runs_spec
      intro j
      have h0 := h 0 j
      simp only [Nat.add_zero, List.get?_cons_zero, Option.some_bind] at h0
      simpa using h0
    show ({ runs := docx_apply_runs M (DocxKey.tab e r c p0) 0 para.runs
            text := ((docx_apply_runs M (DocxKey.tab e r c p0) 0 para.runs).map
              DocxRun.text).flatten
            fmt := para.fmt } : DocxPara)
        :: docx_apply_cell_paras M e r c (p0 + 1) rest
      = docx_para_spec para :: rest.map docx_para_spec
    congr 1
    · rw [hruns]
      rfl
    · apply ih
      intro p j
      have hj := h (p + 1) j
      have harr : p0 + (p + 1) = (p0 + 1) + p := by omega
      rw [harr] at hj
      simpa using hj

theorem docx_apply_cells_spec (M : List (DocxKey × Str)) (e r : Nat) :
    ∀ (cells : List DocxCell) (c0 : Nat),
    (∀ c p j, lookupKey M (DocxKey.tab e r (c0 + c) p j)
      = ((cells.get? c).bind (fun cell => (cell.paragraphs.get? p).bind
          (fun para => (para.runs.map DocxRun.text).get? j))).bind stripOpt) →
    docx_apply_cells M e r c0 cells = cells.map docx_cell_spec := by
  intro cells
  induction cells with
  | nil => intro c0 _; rfl
  | cons cell rest ih =>
    intro c0 h
    have hparas : docx_apply_cell_paras M e r c0 0 cell.paragraphs
        = cell.paragraphs.map docx_para_spec := by
      apply docx_apply_cell_paras_spec
      intro p j
      have h0 := h 0 p j
      simp only [Nat.add_zero, List.get?_cons_zero, Option.some_bind] at h0
      simpa using h0
    show ({ paragraphs := docx_apply_cell_paras M e r c0 0 cell.paragraphs
            text := joinWith ['\n']
              ((docx_apply_cell_paras M e r c0 0 cell.paragraphs).map DocxPara.text)
            fmt := cell.fmt } : DocxCell)
        :: docx_apply_cells M e r (c0 + 1) rest
      = docx_cell_spec cell :: rest.map docx_cell_spec
    congr 1
    · rw [hparas]
      rfl
    · apply ih
      intro c2 p j
      have hj := h (c2 + 1) p j
      have harr : c0 + (c2 + 1) = (c0 + 1) + c2 := by omega
      rw [harr] at hj
      simpa using hj

theorem docx_apply_rows_spec (M : List (DocxKey × Str)) (e : Nat) :
    ∀ (rows : List (List DocxCell)) (r0 : Nat),
    (∀ r c p j, lookupKey M (DocxKey.tab e (r0 + r) c p j)
      = ((rows.get? r).bind (fun row => (row.get? c).bind
          (fun cell => (cell.paragraphs.get? p).bind
            (fun para => (para.runs.map DocxRun.text).get? j)))).bind stripOpt) →
    docx_apply_rows M e r0 rows = rows.map (fun row => row.map docx_cell_spec) := by
  intro rows
  induction rows with
  | nil => intro r0 _; rfl
  | cons row rest ih =>
    intro r0 h
    show docx_apply_cells M e r0 0 row :: docx_apply_rows M e (r0 + 1) rest
      = row.map docx_cell_spec :: rest.map (fun row => row.map docx_cell_spec)
    congr 1
    · apply docx_apply_cells_spec
      intro c p j
      have h0 := h 0 c p j
      simp only [Nat.add_zero, List.get?_cons_zero, Option.some_bind] at h0
      simpa using h0
    · apply ih
      intro r2 c p j
      have hj := h (r2 + 1) c p j
      have harr : r0 + (r2 + 1) = (r0 + 1) + r2 := by omega
      rw [harr] at hj
      simpa using hj

theorem docx_apply_element_spec (M : List (DocxKey × Str)) (e : Nat) (el : DocxElement)
    (h : ∀ k, docxKeyElem k = e → lookupKey M k = (docxElNav el k).bind stripOpt) :
    docx_apply_element M e el = docx_element_spec el := by
  cases el with
  | paragraph runs txt fmt =>
    have hruns : docx_apply_runs M (DocxKey.par e) 0 runs = runs.map docx_run_spec := by
      apply docx_apply_runs_spec
      intro j
      have hj := h (DocxKey.par e j) rfl
      simpa [docxElNav] using hj
    show DocxElement.paragraph (docx_apply_runs M (DocxKey.par e) 0 runs)
        (((docx_apply_runs M (DocxKey.par e) 0 runs).map DocxRun.text).flatten) fmt
      = docx_element_spec (.paragraph runs txt fmt)
    rw [hruns]
    rfl
  | table rows fmt =>
    have hrows : docx_apply_rows M e 0 rows
        = rows.map (fun row => row.map docx_cell_spec) := by
      apply docx_apply_rows_spec
      intro r c p j
      have hj := h (DocxKey.tab e r c p j) rfl
      simpa [docxElNav] using hj
    show DocxElement.table (docx_apply_rows M e 0 rows) fmt
      = docx_element_spec (.table rows fmt)
    rw [hrows]
    rfl
  | other fmt => rfl

theorem docx_apply_elements_spec (M : List (DocxKey × Str)) :
    ∀ (els : List DocxElement) (e0 : Nat),
    (∀ k, e0 ≤ docxKeyElem k →
      lookupKey M k = ((els.get? (docxKeyElem k - e0)).bind
        (fun el => docxElNav el k)).bind stripOpt) →
    docx_apply_elements M e0 els = els.map docx_element_spec := by
  intro els
  induction els with
  | nil => intro e0 _; rfl
  | cons el rest ih =>
    intro e0 h
    show docx_apply_element M e0 el :: docx_apply_elements M (e0 + 1) rest
      = docx_element_spec el :: rest.map docx_element_spec
    congr 1
    · apply docx_apply_element_spec
      intro k hk
      have hj := h k (Nat.le_of_eq hk.symm)
      rw [hk, Nat.sub_self] at hj
      simpa using hj
    · apply ih
      intro k hk
      have hj := h k (by omega)
      have harr : docxKeyElem k - e0 = (docxKeyElem k - (e0 + 1)) + 1 := by omega
      rw [harr] at hj
      simpa using hj

/-! ## Helper lemmas: PPTX paragraph and table levels -/

theorem pptx_collect_paras_mem (slide : Nat) (path : List Nat) :
    ∀ (paras : List PptxPara) (p0 : Nat) (q : Str × PptxKey),
    q ∈ pptx_collect_paras slide path p0 paras →
    ∃ p j t, q.2 = PptxKey.run slide path (p0 + p) j
      ∧ (paras.get? p).bind (fun para => (para.runs.map PptxRun.text).get? j) = some t
      ∧ q.1 = strip t ∧ strip t ≠ [] := by
  intro paras
  induction paras with
  | nil => intro p0 q hq; simp [pptx_collect_paras] at hq
  | cons para rest ih =>
    intro p0 q hq
    rcases List.mem_append.mp hq with h | h
    · obtain ⟨i, t, hk, hget, hv, hne⟩ :=
        collectTexts_mem (PptxKey.run slide path p0) (para.runs.map PptxRun.text) 0 q h
      refine ⟨0, i, t, ?_, by simpa using hget, hv, hne⟩
      rw [hk]
      simp
    · obtain ⟨p, j, t, hk, hget, hv, hne⟩ := ih (p0 + 1) q h
      refine ⟨p + 1, j, t, ?_, by simpa using hget, hv, hne⟩
      rw [hk]
      congr 1
      omega

theorem lookup_pptx_paras (slide : Nat) (path : List Nat) :
    ∀ (paras : List PptxPara) (p0 p j : Nat),
    lookupKey (buildMap (pptx_collect_paras slide path p0 paras) (fun t => t))
        (PptxKey.run slide path (p0 + p) j)
      = ((paras.get? p).bind
          (fun para => (para.runs.map PptxRun.text).get? j)).bind stripOpt := by
  intro paras
  induction paras with
  | nil => intro p0 p j; simp [pptx_collect_paras, buildMap, lookupKey]
  | cons para rest ih =>
    intro p0 p j
    have hsplit : pptx_collect_paras slide path p0 (para :: rest)
        = collectTexts (PptxKey.run slide path p0) 0 (para.runs.map PptxRun.text)
          ++ pptx_collect_paras slide path (p0 + 1) rest := rfl
    rw [hsplit, buildMap_append]
    have hinj : ∀ a b : Nat,
        PptxKey.run slide path p0 a = PptxKey.run slide path p0 b → a = b :=
      fun a b h => by simpa using h
    cases p with
    | zero =>
      have hL : lookupKey
          (buildMap (collectTexts (PptxKey.run slide path p0) 0
            (para.runs.map PptxRun.text)) (fun t => t)) (PptxKey.run slide path p0 j)
          = ((para.runs.map PptxRun.text).get? j).bind stripOpt := by
        simpa using lookup_collectTexts (PptxKey.run slide path p0) hinj
          (para.runs.map PptxRun.text) 0 j
      simp only [Nat.add_zero]
      cases hx : ((para.runs.map PptxRun.text).get? j).bind stripOpt with
      | some v =>
        rw [lookup_append_left _ _ _ v (hL.trans hx)]
        simpa using hx.symm
      | none =>
        rw [lookup_append_none _ _ _ (hL.trans hx)]
        rw [lookup_none_of _ _ ?_]
        · simpa using hx.symm
        · intro q hq
          obtain ⟨en, he, hqe⟩ := List.mem_map.mp hq
          obtain ⟨p2, j2, t2, hk, -, -, -⟩ :=
            pptx_collect_paras_mem slide path rest (p0 + 1) en he
          rw [← hqe]
          simp only [hk]
          intro heq
          simp only [PptxKey.run.injEq] at heq
          omega
    | succ s =>
      have harr : p0 + (s + 1) = (p0 + 1) + s := by omega
      have hLnone : lookupKey
          (buildMap (collectTexts (PptxKey.run slide path p0) 0
            (para.runs.map PptxRun.text)) (fun t => t))
          (PptxKey.run slide path (p0 + (s + 1)) j) = none := by
        apply lookup_none_of
        intro q hq
        obtain ⟨en, he, hqe⟩ := List.mem_map.mp hq
        obtain ⟨i2, t2, hk, -, -, -⟩ :=
          collectTexts_mem (PptxKey.run slide path p0) (para.runs.map PptxRun.text) 0 en he
        rw [← hqe]
        simp only [hk]
        intro heq
        simp only [PptxKey.run.injEq] at heq
        omega
      rw [lookup_append_none _ _ _ hLnone, harr, ih (p0 + 1) s j]
      simp

theorem pptx_collect_table_rows_mem (slide : Nat) (path : List Nat) :
    ∀ (rows : List (List PptxCell)) (r0 : Nat) (q : Str × PptxKey),
    q ∈ pptx_collect_table_rows slide path r0 rows →
    ∃ r c t, q.2 = PptxKey.cell slide path (r0 + r) c
      ∧ (rows.get? r).bind (fun row => (row.map PptxCell.text).get? c) = some t
      ∧ q.1 = strip t ∧ strip t ≠ [] := by
  intro rows
  induction rows with
  | nil => intro r0 q hq; simp [pptx_collect_table_rows] at hq
  | cons row rest ih =>
    intro r0 q hq
    rcases List.mem_append.mp hq with h | h
    · obtain ⟨i, t, hk, hget, hv, hne⟩ :=
        collectTexts_mem (PptxKey.cell slide path r0) (row.map PptxCell.text) 0 q h
      refine ⟨0, i, t, ?_, by simpa using hget, hv, hne⟩
      rw [hk]
      simp
    · obtain ⟨r, c, t, hk, hget, hv, hne⟩ := ih (r0 + 1) q h
      refine ⟨r + 1, c, t, ?_, by simpa using hget, hv, hne⟩
      rw [hk]
      congr 1
      omega

theorem lookup_pptx_table_rows (slide : Nat) (path : List Nat) :
    ∀ (rows : List (List PptxCell)) (r0 r c : Nat),
    lookupKey (buildMap (pptx_collect_table_rows slide path r0 rows) (fun t => t))
        (PptxKey.cell slide path (r0 + r) c)
      = ((rows.get? r).bind (fun row => (row.map PptxCell.text).get? c)).bind
          stripOpt := by
  intro rows
  induction rows with
  | nil => intro r0 r c; simp [pptx_collect_table_rows, buildMap, lookupKey]
  | cons row rest ih =>
    intro r0 r c
    have hsplit : pptx_collect_table_rows slide path r0 (row :: rest)
        = collectTexts (PptxKey.cell slide path r0) 0 (row.map PptxCell.text)
          ++ pptx_collect_table_rows slide path (r0 + 1) rest := rfl
    rw [hsplit, buildMap_append]
    have hinj : ∀ a b : Nat,
        PptxKey.cell slide path r0 a = PptxKey.cell slide path r0 b → a = b :=
      fun a b h => by simpa using h
    cases r with
    | zero =>
      have hL : lookupKey
          (buildMap (collectTexts (PptxKey.cell slide path r0) 0
            (row.map PptxCell.text)) (fun t => t)) (PptxKey.cell slide path r0 c)
          = ((row.map PptxCell.text).get? c).bind stripOpt := by
        simpa using lookup_collectTexts (PptxKey.cell slide path r0) hinj
          (row.map PptxCell.text) 0 c
      simp only [Nat.add_zero]
      cases hx : ((row.map PptxCell.text).get? c).bind stripOpt with
      | some v =>
        rw [lookup_append_left _ _ _ v (hL.trans hx)]
        simpa using hx.symm
      | none =>
        rw [lookup_append_none _ _ _ (hL.trans hx)]
        rw [lookup_none_of _ _ ?_]
        · simpa using hx.symm
        · intro q hq
          obtain ⟨en, he, hqe⟩ := List.mem_map.mp hq
          obtain ⟨r2, c2, t2, hk, -, -, -⟩ :=
            pptx_collect_table_rows_mem slide path rest (r0 + 1) en he
          rw [← hqe]
          simp only [hk]
          intro heq
          simp only [PptxKey.cell.injEq] at heq
          omega
    | succ s =>
      have harr : r0 + (s + 1) = (r0 + 1) + s := by omega
      have hLnone : lookupKey
          (buildMap (collectTexts (PptxKey.cell slide path r0) 0
            (row.map PptxCell.text)) (fun t => t))
          (PptxKey.cell slide path (r0 + (s + 1)) c) = none := by
        apply lookup_none_of
        intro q hq
        obtain ⟨en, he, hqe⟩ := List.mem_map.mp hq
        obtain ⟨i2, t2, hk, -, -, -⟩ :=
          collectTexts_mem (PptxKey.cell slide path r0) (row.map PptxCell.text) 0 en he
        rw [← hqe]
        simp only [hk]
        intro heq
        simp only [PptxKey.cell.injEq] at heq
        omega
      rw [lookup_append_none _ _ _ hLnone, harr, ih (r0 + 1) s c]
      simp

/-! ## Helper lemmas: PPTX shape recursion -/

mutual

theorem pptx_collect_shape_mem (slide : Nat) (sh : PptxShape) :
    ∀ (path : List Nat) (q : Str × PptxKey), q ∈ pptx_collect_shape slide path sh →
    pptxKeySlide q.2 = slide
    ∧ ∃ suffix t, pptxKeyPath q.2 = path ++ suffix
      ∧ pptxNavShape sh suffix q.2 = some t ∧ q.1 = strip t ∧ strip t ≠ [] := by
  cases sh with
  | text paras fmt =>
    intro path q hq
    have hq2 : q ∈ pptx_collect_paras slide path 0 paras := by
      simpa [pptx_collect_shape] using hq
    obtain ⟨p, j, t, hk, hget, hv, hne⟩ :=
      pptx_collect_paras_mem slide path paras 0 q hq2
    refine ⟨by rw [hk]; rfl, [], t, by rw [hk]; simp [pptxKeyPath], ?_, hv, hne⟩
    rw [hk]
    simpa [pptxNavShape, Nat.zero_add] using hget
  | table rows fmt =>
    intro path q hq
    have hq2 : q ∈ pptx_collect_table_rows slide path 0 rows := by
      simpa [pptx_collect_shape] using hq
    obtain ⟨r, c, t, hk, hget, hv, hne⟩ :=
      pptx_collect_table_rows_mem slide path rows 0 q hq2
    refine ⟨by rw [hk]; rfl, [], t, by rw [hk]; simp [pptxKeyPath], ?_, hv, hne⟩
    rw [hk]
    simpa [pptxNavShape, Nat.zero_add] using hget
  | group shapes fmt =>
    intro path q hq
    have hq2 : q ∈ pptx_collect_shapes slide path 0 shapes := by
      simpa [pptx_collect_shape] using hq
    obtain ⟨hsl, i, suffix, t, hp, hget, hv, hne⟩ :=
      pptx_collect_shapes_mem slide shapes path 0 q hq2
    refine ⟨hsl, i :: suffix, t, by simpa using hp, ?_, hv, hne⟩
    simpa [pptxNavShape] using hget
  | other fmt =>
    intro path q hq
    simp [pptx_collect_shape] at hq

theorem pptx_collect_shapes_mem (slide : Nat) (shapes : List PptxShape) :
    ∀ (path : List Nat) (i0 : Nat) (q : Str × PptxKey),
    q ∈ pptx_collect_shapes slide path i0 shapes →
    pptxKeySlide q.2 = slide
    ∧ ∃ i suffix t, pptxKeyPath q.2 = path ++ (i0 + i) :: suffix
      ∧ (shapes.get? i).bind (fun sh => pptxNavShape sh suffix q.2) = some t
      ∧ q.1 = strip t ∧ strip t ≠ [] := by
  cases shapes with
  | nil =>
    intro path i0 q hq
    simp [pptx_collect_shapes] at hq
  | cons sh rest =>
    intro path i0 q hq
    have hq2 : q ∈ pptx_collect_shape slide (path ++ [i0]) sh
        ++ pptx_collect_shapes slide path (i0 + 1) rest := by
      simpa [pptx_collect_shapes] using hq
    rcases List.mem_append.mp hq2 with h | h
    · obtain ⟨hsl, suffix, t, hp, hnav, hv, hne⟩ :=
        pptx_collect_shape_mem slide sh (path ++ [i0]) q h
      refine ⟨hsl, 0, suffix, t, ?_, by simpa using hnav, hv, hne⟩
      rw [hp]
      simp
    · obtain ⟨hsl, i, suffix, t, hp, hget, hv, hne⟩ :=
        pptx_collect_shapes_mem slide rest path (i0 + 1) q h
      refine ⟨hsl, i + 1, suffix, t, ?_, by simpa using hget, hv, hne⟩
      rw [hp]
      have : i0 + 1 + i = i0 + (i + 1) := by omega
      rw [this]

end

mutual

theorem lookup_pptx_shape (slide : Nat) (sh : PptxShape) :
    ∀ (path : List Nat) (k : PptxKey) (suffix : List Nat),
    pptxKeySlide k = slide → pptxKeyPath k = path ++ suffix →
    lookupKey (buildMap (pptx_collect_shape slide path sh) (fun t => t)) k
      = (pptxNavShape sh suffix k).bind stripOpt := by
  cases sh with
  | text paras fmt =>
    intro path k suffix hsl hp
    cases suffix with
    | nil =>
      cases k with
      | run s pth p j =>
        simp only [pptxKeySlide] at hsl
        simp only [pptxKeyPath, List.append_nil] at hp
        subst hsl
        subst hp
        have := lookup_pptx_paras s pth paras 0 p j
        simpa [pptx_collect_shape, pptxNavShape, Nat.zero_add] using this
      | cell s pth r c =>
        rw [lookup_none_of _ _ ?_]
        · simp [pptxNavShape]
        · intro q hq
          simp only [pptx_collect_shape] at hq
          obtain ⟨en, he, hqe⟩ := List.mem_map.mp hq
          obtain ⟨p2, j2, t2, hk, -, -, -⟩ :=
            pptx_collect_paras_mem slide path paras 0 en he
          rw [← hqe]
          simp [hk]
    | cons i rest =>
      rw [lookup_none_of _ _ ?_]
      · simp [pptxNavShape]
      · intro q hq
        simp only [pptx_collect_shape] at hq
        obtain ⟨en, he, hqe⟩ := List.mem_map.mp hq
        obtain ⟨p2, j2, t2, hk, -, -, -⟩ :=
          pptx_collect_paras_mem slide path paras 0 en he
        rw [← hqe]
        intro heq
        have h2 := congrArg pptxKeyPath heq
        rw [hp] at h2
        simp [hk, pptxKeyPath] at h2
  | table rows fmt =>
    intro path k suffix hsl hp
    cases suffix with
    | nil =>
      cases k with
      | cell s pth r c =>
        simp only [pptxKeySlide] at hsl
        simp only [pptxKeyPath, List.append_nil] at hp
        subst hsl
        subst hp
        have := lookup_pptx_table_rows s pth rows 0 r c
        simpa [pptx_collect_shape, pptxNavShape, Nat.zero_add] using this
      | run s pth p j =>
        rw [lookup_none_of _ _ ?_]
        · simp [pptxNavShape]
        · intro q hq
          simp only [pptx_collect_shape] at hq
          obtain ⟨en, he, hqe⟩ := List.mem_map.mp hq
          obtain ⟨r2, c2, t2, hk, -, -, -⟩ :=
            pptx_collect_table_rows_mem slide path rows 0 en he
          rw [← hqe]
          simp [hk]
    | cons i rest =>
      rw [lookup_none_of _ _ ?_]
      · simp [pptxNavShape]
      · intro q hq
        simp only [pptx_collect_shape] at hq
        obtain ⟨en, he, hqe⟩ := List.mem_map.mp hq
        obtain ⟨r2, c2, t2, hk, -, -, -⟩ :=
          pptx_collect_table_rows_mem slide path rows 0 en he
        rw [← hqe]
        intro heq
        have h2 := congrArg pptxKeyPath heq
        rw [hp] at h2
        simp [hk, pptxKeyPath] at h2
  | group shapes fmt =>
    intro path k suffix hsl hp
    cases suffix with
    | nil =>
      rw [lookup_none_of _ _ ?_]
      · cases k <;> simp [pptxNavShape]
      · intro q hq
        simp only [pptx_collect_shape] at hq
        obtain ⟨en, he, hqe⟩ := List.mem_map.mp hq
        obtain ⟨-, i2, sfx2, t2, hp2, -, -, -⟩ :=
          pptx_collect_shapes_mem slide shapes path 0 en he
        rw [← hqe]
        intro heq
        have h2 := congrArg pptxKeyPath heq
        rw [hp2, hp, List.append_nil] at h2
        have h3 := congrArg List.length h2
        simp at h3
    | cons i rest =>
      have hp2 : pptxKeyPath k = path ++ (0 + i) :: rest := by
        rw [hp, Nat.zero_add]
      have := lookup_pptx_shapes slide shapes path 0 k i rest hsl hp2
      simpa [pptx_collect_shape, pptxNavShape] using this
  | other fmt =>
    intro path k suffix hsl hp
    cases suffix with
    | nil => cases k <;> simp [pptx_collect_shape, pptxNavShape, buildMap, lookupKey]
    | cons i rest => simp [pptx_collect_shape, pptxNavShape, buildMap, lookupKey]

theorem lookup_pptx_shapes (slide : Nat) (shapes : List PptxShape) :
    ∀ (path : List Nat) (i0 : Nat) (k : PptxKey) (i : Nat) (suffix : List Nat),
    pptxKeySlide k = slide → pptxKeyPath k = path ++ (i0 + i) :: suffix →
    lookupKey (buildMap (pptx_collect_shapes slide path i0 shapes) (fun t => t)) k
      = ((shapes.get? i).bind (fun sh => pptxNavShape sh suffix k)).bind stripOpt := by
  cases shapes with
  | nil =>
    intro path i0 k i suffix hsl hp
    simp [pptx_collect_shapes, buildMap, lookupKey]
  | cons sh rest =>
    intro path i0 k i suffix hsl hp
    have hsplit : pptx_collect_shapes slide path i0 (sh :: rest)
        = pptx_collect_shape slide (path ++ [i0]) sh
          ++ pptx_collect_shapes slide path (i0 + 1) rest := by
      simp [pptx_collect_shapes]
    rw [hsplit, buildMap_append]
    cases i with
    | zero =>
      have hp0 : pptxKeyPath k = (path ++ [i0]) ++ suffix := by
        rw [hp]
        simp
      have hL := lookup_pptx_shape slide sh (path ++ [i0]) k suffix hsl hp0
      cases hx : (pptxNavShape sh suffix k).bind stripOpt with
      | some v =>
        rw [lookup_append_left _ _ _ v (hL.trans hx)]
        simpa using hx.symm
      | none =>
        rw [lookup_append_none _ _ _ (hL.trans hx)]
        rw [lookup_none_of _ _ ?_]
        · simpa using hx.symm
        · intro q hq
          obtain ⟨en, he, hqe⟩ := List.mem_map.mp hq
          obtain ⟨-, i2, sfx2, t2, hp2, -, -, -⟩ :=
            pptx_collect_shapes_mem slide rest path (i0 + 1) en he
          rw [← hqe]
          intro heq
          have h2 := congrArg pptxKeyPath heq
          rw [hp2, hp] at h2
          have h3 := List.append_cancel_left h2
          simp only [List.cons.injEq] at h3
          exact absurd h3.1 (by omega)
    | succ s =>
      have hLnone : lookupKey
          (buildMap (pptx_collect_shape slide (path ++ [i0]) sh) (fun t => t)) k
          = none := by
        apply lookup_none_of
        intro q hq
        obtain ⟨en, he, hqe⟩ := List.mem_map.mp hq
        obtain ⟨-, sfx2, t2, hp2, -, -, -⟩ :=
          pptx_collect_shape_mem slide sh (path ++ [i0]) en he
        rw [← hqe]
        intro heq
        have h2 := congrArg pptxKeyPath heq
        rw [hp2, hp, List.append_assoc] at h2
        have h3 := List.append_cancel_left h2
        simp only [List.singleton_append, List.cons.injEq] at h3
        exact absurd h3.1 (by omega)
      rw [lookup_append_none _ _ _ hLnone]
      have hp1 : pptxKeyPath k = path ++ ((i0 + 1) + s) :: suffix := by
        rw [hp]
        congr 2
        omega
      rw [lookup_pptx_shapes slide rest path (i0 + 1) k s suffix hsl hp1]
      simp

end

/-! ## Helper lemmas: PPTX slides level and master lookup -/

theorem pptx_collect_slides_mem :
    ∀ (slides : List (List PptxShape)) (s0 : Nat) (q : Str × PptxKey),
    q ∈ pptx_collect_slides s0 slides →
    ∃ d shapes t, pptxKeySlide q.2 = s0 + d ∧ slides.get? d = some shapes
      ∧ pptxNavShapes shapes (pptxKeyPath q.2) q.2 = some t
      ∧ q.1 = strip t ∧ strip t ≠ [] := by
  intro slides
  induction slides with
  | nil => intro s0 q hq; simp [pptx_collect_slides] at hq
  | cons shapes rest ih =>
    intro s0 q hq
    rcases List.mem_append.mp hq with h | h
    · obtain ⟨hsl, i, suffix, t, hp, hget, hv, hne⟩ :=
        pptx_collect_shapes_mem s0 shapes [] 0 q h
      refine ⟨0, shapes, t, by omega, rfl, ?_, hv, hne⟩
      rw [hp]
      simpa [pptxNavShapes, Nat.zero_add] using hget
    · obtain ⟨d, shs, t, hsl, hget, hnav, hv, hne⟩ := ih (s0 + 1) q h
      exact ⟨d + 1, shs, t, by omega, by simpa using hget, hnav, hv, hne⟩

theorem lookup_pptx_slides :
    ∀ (slides : List (List PptxShape)) (s0 : Nat) (k : PptxKey) (d : Nat),
    pptxKeySlide k = s0 + d →
    lookupKey (buildMap (pptx_collect_slides s0 slides) (fun t => t)) k
      = ((slides.get? d).bind
          (fun shapes => pptxNavShapes shapes (pptxKeyPath k) k)).bind stripOpt := by
  intro slides
  induction slides with
  | nil => intro s0 k d _; simp [pptx_collect_slides, buildMap, lookupKey]
  | cons shapes rest ih =>
    intro s0 k d hsl
    have hsplit : pptx_collect_slides s0 (shapes :: rest)
        = pptx_collect_shapes s0 [] 0 shapes ++ pptx_collect_slides (s0 + 1) rest :=
      rfl
    rw [hsplit, buildMap_append]
    cases d with
    | zero =>
      have htail : lookupKey
          (buildMap (pptx_collect_slides (s0 + 1) rest) (fun t => t)) k = none := by
        apply lookup_none_of
        intro q hq
        obtain ⟨en, he, hqe⟩ := List.mem_map.mp hq
        obtain ⟨d2, shs2, t2, hsl2, -, -, -, -⟩ :=
          pptx_collect_slides_mem rest (s0 + 1) en he
        rw [← hqe]
        intro heq
        have h2 := congrArg pptxKeySlide heq
        rw [hsl2, hsl] at h2
        omega
      cases hpk : pptxKeyPath k with
      | nil =>
        have hhead : lookupKey
            (buildMap (pptx_collect_shapes s0 [] 0 shapes) (fun t => t)) k = none := by
          apply lookup_none_of
          intro q hq
          obtain ⟨en, he, hqe⟩ := List.mem_map.mp hq
          obtain ⟨-, i2, sfx2, t2, hp2, -, -, -⟩ :=
            pptx_collect_shapes_mem s0 shapes [] 0 en he
          rw [← hqe]
          intro heq
          have h2 := congrArg pptxKeyPath heq
          rw [hp2, hpk] at h2
          simp at h2
        rw [lookup_append_none _ _ _ hhead, htail]
        simp [pptxNavShapes]
      | cons i rest2 =>
        have hsl0 : pptxKeySlide k = s0 := by omega
        have hp0 : pptxKeyPath k = [] ++ (0 + i) :: rest2 := by
          rw [hpk]
          simp
        have hL := lookup_pptx_shapes s0 shapes [] 0 k i rest2 hsl0 hp0
        cases hx : ((shapes.get? i).bind (fun sh => pptxNavShape sh rest2 k)).bind
            stripOpt with
        | some v =>
          rw [lookup_append_left _ _ _ v (hL.trans hx)]
          rw [show ((shapes :: rest).get? 0) = some shapes from rfl]
          simpa [pptxNavShapes, hpk] using hx.symm
        | none =>
          rw [lookup_append_none _ _ _ (hL.trans hx), htail]
          rw [show ((shapes :: rest).get? 0) = some shapes from rfl]
          simpa [pptxNavShapes, hpk] using hx.symm
    | succ s =>
      have hhead : lookupKey
          (buildMap (pptx_collect_shapes s0 [] 0 shapes) (fun t => t)) k = none := by
        apply lookup_none_of
        intro q hq
        obtain ⟨en, he, hqe⟩ := List.mem_map.mp hq
        obtain ⟨hsl2, -⟩ := pptx_collect_shapes_mem s0 shapes [] 0 en he
        rw [← hqe]
        intro heq
        have h2 := congrArg pptxKeySlide heq
        rw [hsl2, hsl] at h2
        omega
      rw [lookup_append_none _ _ _ hhead]
      have hsl1 : pptxKeySlide k = (s0 + 1) + s := by omega
      rw [ih (s0 + 1) k s hsl1]
      simp

/-- The full PPTX dictionary lookup: the value at a key is the stripped text of
the unit the key addresses, when that unit exists and is non-whitespace. -/
theorem pptx_master_lookup (slides : List (List PptxShape)) (k : PptxKey) :
    lookupKey (buildMap (pptx_collect slides) (fun t => t)) k
      = ((slides.get? (pptxKeySlide k)).bind
          (fun shapes => pptxNavShapes shapes (pptxKeyPath k) k)).bind stripOpt := by
  have := lookup_pptx_slides slides 0 k (pptxKeySlide k) (by omega)
  simpa [pptx_collect] using this

/-! ## Helper lemmas: PPTX apply specifications -/

theorem pptx_apply_runs_spec (M : List (PptxKey × Str)) (slide : Nat)
    (path : List Nat) (p : Nat) :
    ∀ (runs : List PptxRun) (j0 : Nat),
    (∀ j, lookupKey M (PptxKey.run slide path p (j0 + j))
      = ((runs.map PptxRun.text).get? j).bind stripOpt) →
    pptx_apply_runs M slide path p j0 runs = runs.map pptx_run_spec := by
  intro runs
  induction runs with
  | nil => intro j0 _; rfl
  | cons run rest ih =>
    intro j0 h
    have h0 := h 0
    simp only [Nat.add_zero, List.map_cons, List.get?_cons_zero, Option.some_bind] at h0
    show { run with text := (lookupKey M (PptxKey.run slide path p j0)).getD run.text }
        :: pptx_apply_runs M slide path p (j0 + 1) rest
      = pptx_run_spec run :: rest.map pptx_run_spec
    congr 1
    · rw [h0, stripOpt_getD]
      rfl
    · apply ih
      intro j
      have hj := h (j + 1)
      have harr : j0 + (j + 1) = (j0 + 1) + j := by omega
      rw [harr] at hj
      simpa using hj

theorem pptx_apply_paras_spec (M : List (PptxKey × Str)) (slide : Nat)
    (path : List Nat) :
    ∀ (paras : List PptxPara) (p0 : Nat),
    (∀ p j, lookupKey M (PptxKey.run slide path (p0 + p) j)
      = ((paras.get? p).bind
          (fun para => (para.runs.map PptxRun.text).get? j)).bind stripOpt) →
    pptx_apply_paras M slide path p0 paras = paras.map pptx_para_spec := by
  intro paras
  induction paras with
  | nil => intro p0 _; rfl
  | cons para rest ih =>
    intro p0 h
    have hruns : pptx_apply_runs M slide path p0 0 para.runs
        = para.runs.map pptx_run_spec := by
      apply pptx_apply_runs_spec
      intro j
      have h0 := h 0 j
      simp only [Nat.add_zero, List.get?_cons_zero, Option.some_bind] at h0
      simpa using h0
    show ({ runs := pptx_apply_runs M slide path p0 0 para.runs
            text := ((pptx_apply_runs M slide path p0 0 para.runs).map
              PptxRun.text).flatten
            fmt := para.fmt } : PptxPara)
        :: pptx_apply_paras M slide path (p0 + 1) rest
      = pptx_para_spec para :: rest.map pptx_para_spec
    congr 1
    · rw [hruns]
      rfl
    · apply ih
      intro p j
      have hj := h (p + 1) j
      have harr : p0 + (p + 1) = (p0 + 1) + p := by omega
      rw [harr] at hj
      simpa using hj

theorem pptx_apply_cells_spec (M : List (PptxKey × Str)) (slide : Nat)
    (path : List Nat) (r : Nat) :
    ∀ (cells : List PptxCell) (c0 : Nat),
    (∀ c, lookupKey M (PptxKey.cell slide path r (c0 + c))
      = ((cells.map PptxCell.text).get? c).bind stripOpt) →
    pptx_apply_cells M slide path r c0 cells = cells.map pptx_cell_spec := by
  intro cells
  induction cells with
  | nil => intro c0 _; rfl
  | cons cell rest ih =>
    intro c0 h
    have h0 := h 0
    simp only [Nat.add_zero, List.map_cons, List.get?_cons_zero, Option.some_bind] at h0
    show { cell with
          text := (lookupKey M (PptxKey.cell slide path r c0)).getD cell.text }
        :: pptx_apply_cells M slide path r (c0 + 1) rest
      = pptx_cell_spec cell :: rest.map pptx_cell_spec
    congr 1
    · rw [h0, stripOpt_getD]
      rfl
    · apply ih
      intro c
      have hj := h (c + 1)
      have harr : c0 + (c + 1) = (c0 + 1) + c := by omega
      rw [harr] at hj
      simpa using hj

theorem pptx_apply_rows_spec (M : List (PptxKey × Str)) (slide : Nat)
    (path : List Nat) :
    ∀ (rows : List (List PptxCell)) (r0 : Nat),
    (∀ r c, lookupKey M (PptxKey.cell slide path (r0 + r) c)
      = ((rows.get? r).bind
          (fun row => (row.map PptxCell.text).get? c)).bind stripOpt) →
    pptx_apply_rows M slide path r0 rows
      = rows.map (fun row => row.map pptx_cell_spec) := by
  intro rows
  induction rows with
  | nil => intro r0 _; rfl
  | cons row rest ih =>
    intro r0 h
    show pptx_apply_cells M slide path r0 0 row
        :: pptx_apply_rows M slide path (r0 + 1) rest
      = row.map pptx_cell_spec :: rest.map (fun row => row.map pptx_cell_spec)
    congr 1
    · apply pptx_apply_cells_spec
      intro c
      have h0 := h 0 c
      simp only [Nat.add_zero, List.get?_cons_zero, Option.some_bind] at h0
      simpa using h0
    · apply ih
      intro r2 c
      have hj := h (r2 + 1) c
      have harr : r0 + (r2 + 1) = (r0 + 1) + r2 := by omega
      rw [harr] at hj
      simpa using hj

mutual

theorem pptx_apply_shape_spec (M : List (PptxKey × Str)) (slide : Nat)
    (sh : PptxShape) :
    ∀ (path : List Nat),
    (∀ k suffix, pptxKeySlide k = slide → pptxKeyPath k = path ++ suffix →
      lookupKey M k = (pptxNavShape sh suffix k).bind stripOpt) →
    pptx_apply_shape M slide path sh = pptx_shape_spec sh := by
  cases sh with
  | text paras fmt =>
    intro path h
    have hparas : pptx_apply_paras M slide path 0 paras
        = paras.map pptx_para_spec := by
      apply pptx_apply_paras_spec
      intro p j
      have hj := h (PptxKey.run slide path p j) [] rfl (by simp [pptxKeyPath])
      simpa [pptxNavShape, Nat.zero_add] using hj
    simp [pptx_apply_shape, pptx_shape_spec, hparas]
  | table rows fmt =>
    intro path h
    have hrows : pptx_apply_rows M slide path 0 rows
        = rows.map (fun row => row.map pptx_cell_spec) := by
      apply pptx_apply_rows_spec
      intro r c
      have hj := h (PptxKey.cell slide path r c) [] rfl (by simp [pptxKeyPath])
      simpa [pptxNavShape, Nat.zero_add] using hj
    simp [pptx_apply_shape, pptx_shape_spec, hrows]
  | group shapes fmt =>
    intro path h
    have hsh : pptx_apply_shapes M slide path 0 shapes = pptx_shapes_spec shapes := by
      apply pptx_apply_shapes_spec
      intro k i suffix hsl hp
      have hj := h k ((0 + i) :: suffix) hsl (by rw [hp])
      simpa [pptxNavShape, Nat.zero_add] using hj
    simp [pptx_apply_shape, pptx_shape_spec, hsh]
  | other fmt =>
    intro path h
    simp [pptx_apply_shape, pptx_shape_spec]

theorem pptx_apply_shapes_spec (M : List (PptxKey × Str)) (slide : Nat)
    (shapes : List PptxShape) :
    ∀ (path : List Nat) (i0 : Nat),
    (∀ k i suffix, pptxKeySlide k = slide →
      pptxKeyPath k = path ++ (i0 + i) :: suffix →
      lookupKey M k
        = ((shapes.get? i).bind (fun sh => pptxNavShape sh suffix k)).bind stripOpt) →
    pptx_apply_shapes M slide path i0 shapes = pptx_shapes_spec shapes := by
  cases shapes with
  | nil =>
    intro path i0 h
    simp [pptx_apply_shapes, pptx_shapes_spec]
  | cons sh rest =>
    intro path i0 h
    have hhead : pptx_apply_shape M slide (path ++ [i0]) sh = pptx_shape_spec sh := by
      apply pptx_apply_shape_spec
      intro k suffix hsl hp
      have hj := h k 0 suffix hsl (by rw [hp]; simp)
      simpa using hj
    have htail : pptx_apply_shapes M slide path (i0 + 1) rest
        = pptx_shapes_spec rest := by
      apply pptx_apply_shapes_spec
      intro k i suffix hsl hp
      have hj := h k (i + 1) suffix hsl (by rw [hp]; congr 2; omega)
      simpa using hj
    simp [pptx_apply_shapes, pptx_shapes_spec, hhead, htail]

end

theorem pptx_apply_slides_spec (M : List (PptxKey × Str)) :
    ∀ (slides : List (List PptxShape)) (s0 : Nat),
    (∀ k, s0 ≤ pptxKeySlide k →
      lookupKey M k = ((slides.get? (pptxKeySlide k - s0)).bind
        (fun shapes => pptxNavShapes shapes (pptxKeyPath k) k)).bind stripOpt) →
    pptx_apply_slides M s0 slides = slides.map pptx_shapes_spec := by
  intro slides
  induction slides with
  | nil => intro s0 _; rfl
  | cons shapes rest ih =>
    intro s0 h
    show pptx_apply_shapes M s0 [] 0 shapes :: pptx_apply_slides M (s0 + 1) rest
      = pptx_shapes_spec shapes :: rest.map pptx_shapes_spec
    congr 1
    · apply pptx_apply_shapes_spec
      intro k i suffix hsl hp
      have hj := h k (by omega)
      rw [hsl, Nat.sub_self, hp] at hj
      simpa [pptxNavShapes, Nat.zero_add] using hj
    · apply ih
      intro k hk
      have hj := h k (by omega)
      have harr : pptxKeySlide k - s0 = (pptxKeySlide k - (s0 + 1)) + 1 := by omega
      rw [harr] at hj
      simpa using hj

/-- **C10.** In both structure-preserving office translators, every collected
unit is the stripped (leading/trailing-whitespace-removed), non-whitespace text
of the run or cell its key addresses (DOCX membership and PPTX membership
conjuncts), and applying the dictionary built from the collected units under an
identity translation rewrites every document: each collected run or cell ends
up holding its stripped text (whitespace-only units, never collected, stay
unchanged), so leading and trailing whitespace inside a collected run does not
survive an identity translation (DOCX and PPTX application conjuncts). -/
theorem structure_preserving_strip :
    (∀ els : List DocxElement,
      docx_apply_translations (buildMap (docx_collect els) (fun t => t)) els
        = docx_identity_spec els)
    ∧ (∀ (els : List DocxElement) (q : Str × DocxKey), q ∈ docx_collect els →
        ∃ el t, els.get? (docxKeyElem q.2) = some el
          ∧ docxElNav el q.2 = some t ∧ q.1 = strip t ∧ strip t ≠ [])
    ∧ (∀ slides : List (List PptxShape),
      pptx_apply_translations (buildMap (pptx_collect slides) (fun t => t)) slides
        = pptx_identity_spec slides)
    ∧ (∀ (slides : List (List PptxShape)) (q : Str × PptxKey),
        q ∈ pptx_collect slides →
        ∃ shapes t, slides.get? (pptxKeySlide q.2) = some shapes
          ∧ pptxNavShapes shapes (pptxKeyPath q.2) q.2 = some t
          ∧ q.1 = strip t ∧ strip t ≠ []) := by
  refine ⟨?_, ?_, ?_, ?_⟩
  · intro els
    show docx_apply_elements _ 0 els = els.map docx_element_spec
    apply docx_apply_elements_spec
    intro k _
    simpa [Nat.sub_zero] using docx_master_lookup els k
  · intro els q hq
    obtain ⟨d, el, t, hke, hget, hnav, hv, hne⟩ :=
      docx_collect_elements_mem els 0 q (by simpa [docx_collect] using hq)
    have hd : docxKeyElem q.2 = d := by omega
    rw [hd]
    exact ⟨el, t, hget, hnav, hv, hne⟩
  · intro slides
    show pptx_apply_slides _ 0 slides = slides.map pptx_shapes_spec
    apply pptx_apply_slides_spec
    intro k _
    simpa [Nat.sub_zero] using pptx_master_lookup slides k
  · intro slides q hq
    obtain ⟨d, shapes, t, hsl, hget, hnav, hv, hne⟩ :=
      pptx_collect_slides_mem slides 0 q (by simpa [pptx_collect] using hq)
    have hd : pptxKeySlide q.2 = d := by omega
    rw [hd]
    exact ⟨shapes, t, hget, hnav, hv, hne⟩

/-- Witness for the C10 membership conjuncts on concrete one-unit documents:
a DOCX paragraph whose only run is "  hi " is collected as the stripped unit
"hi" under key `par 0 0`, and a PPTX text shape whose only run is " ok" is
collected as "ok" under key `run 0 [0] 0 0`; the theorem then locates each
unit at its key and identifies it as the stripped, non-whitespace run text. -/
theorem structure_preserving_strip_witness :
    (((str "hi", DocxKey.par 0 0)
        ∈ docx_collect [DocxElement.paragraph [⟨str "  hi ", 7⟩] (str "  hi ") 7])
      ∧ ∃ el t,
          [DocxElement.paragraph [⟨str "  hi ", 7⟩] (str "  hi ") 7].get?
              (docxKeyElem (DocxKey.par 0 0)) = some el
          ∧ docxElNav el (DocxKey.par 0 0) = some t
          ∧ str "hi" = strip t ∧ strip t ≠ [])
    ∧ (((str "ok", PptxKey.run 0 [0] 0 0)
        ∈ pptx_collect [[PptxShape.text [⟨[⟨str " ok", 3⟩], str " ok", 3⟩] 3]])
      ∧ ∃ shapes t,
          [[PptxShape.text [⟨[⟨str " ok", 3⟩], str " ok", 3⟩] 3]].get?
              (pptxKeySlide (PptxKey.run 0 [0] 0 0)) = some shapes
          ∧ pptxNavShapes shapes (pptxKeyPath (PptxKey.run 0 [0] 0 0))
              (PptxKey.run 0 [0] 0 0) = some t
          ∧ str "ok" = strip t ∧ strip t ≠ []) :=
  ⟨⟨by decide, structure_preserving_strip.2.1
      [DocxElement.paragraph [⟨str "  hi ", 7⟩] (str "  hi ") 7]
      (str "hi", DocxKey.par 0 0) (by decide)⟩,
   ⟨by decide, structure_preserving_strip.2.2.2
      [[PptxShape.text [⟨[⟨str " ok", 3⟩], str " ok", 3⟩] 3]]
      (str "ok", PptxKey.run 0 [0] 0 0) (by decide)⟩⟩

end Texra
